import Mathlib

/-!
Verification of the STCP secure-transport library (github.com/taodev/stcp).

This file gives a shallow embedding of the parts of the Go source that the
verified properties talk about:

  * `secure.go` — the framed AEAD record layer (`SecureReader`, `SecureWriter`,
    their nonce schedule, framing, and error behaviour);
  * `handshake_v1.go` — the v1 handshake (`clientHandshake`, `serverHandshake`,
    `cryptoFromName`);
  * the `ServerContext` replay cache (`CheckReplay`, `replayGC`) and the
    configuration records;
  * `Conn.init` from `conn.go`.

Byte strings are modelled as `List Nat` (each entry a byte value).  Go's
`copy` into array slices is modelled by `listCopy`/`setSlice`.  External
cryptographic primitives (X25519, HKDF-SHA256, HMAC-SHA256, and the AEAD
ciphers) live in external modules (`crypto/ecdh`, `crypto/hkdf`,
`golang.org/x/crypto`), so they are taken as parameters; theorems assume only
the interface facts the Go code relies on (output lengths, the ECDH shared
secret agreement, and AEAD `Open`/`Seal` inversion).
-/

namespace Stcp

/-- Byte strings: lists of byte values. -/
abbrev Bytes := List Nat

/-- `leBytes k n`: the `k`-byte little-endian encoding of `n`
(as written by `binary.LittleEndian.PutUint16/PutUint64`). -/
def leBytes : Nat → Nat → Bytes
  | 0, _ => []
  | k + 1, n => n % 256 :: leBytes k (n / 256)

/-- Little-endian decoding (as read by `binary.LittleEndian.Uint16/Uint64`). -/
def decLE : Bytes → Nat
  | [] => 0
  | b :: bs => b + 256 * decLE bs

/-- The result of Go's `copy(dst, src)`: the destination with
`min (len dst) (len src)` leading bytes replaced by `src`. -/
def listCopy (dst src : Bytes) : Bytes :=
  src.take dst.length ++ dst.drop src.length

/-- Go's `copy(a[i:j], src)`: copy `src` over the window `[i, j)` of `a`. -/
def setSlice (a : Bytes) (i j : Nat) (src : Bytes) : Bytes :=
  a.take i ++ listCopy ((a.take j).drop i) src ++ a.drop j

/-- `2^64`, the modulus of Go's `uint64` nonce counter. -/
def u64Mod : Nat := 2 ^ 64

-- Constants from `secure.go` and `handshake_v1.go`.

def gcmHeaderSize : Nat := 2
def gcmNonceSize : Nat := 12
def gcmTagSize : Nat := 16
def gcmPacketSize : Nat := 4 * 1024
def gcmPacketCache : Nat := gcmHeaderSize + gcmPacketSize + gcmTagSize

def keySizeV1 : Nat := 32
def keyStartV1 : Nat := 0
def keyEndV1 : Nat := keyStartV1 + keySizeV1
def idSizeV1 : Nat := 8
def idStartV1 : Nat := keyEndV1
def idEndV1 : Nat := idStartV1 + idSizeV1
def signSizeV1 : Nat := 32
def signStartV1 : Nat := idEndV1
def signEndV1 : Nat := signStartV1 + signSizeV1
def packetSizeV1 : Nat := signEndV1
def maxNonceSize : Nat := 24

/-- The error outcomes the modelled code can produce.  Each constructor
stands for one distinct Go error value or error string. -/
inductive Err where
  /-- `io.EOF` -/
  | eof
  /-- `io.ErrUnexpectedEOF` -/
  | unexpectedEof
  /-- `"stcp: message too long"` -/
  | tooLong
  /-- `"stcp: message too short"` -/
  | tooShort
  /-- an AEAD `Open` authentication failure -/
  | cipher
  /-- `io.ErrClosedPipe` -/
  | closedPipe
  /-- an error returned by the carrier's `Write` -/
  | carrier
  /-- `"replay attack: %d"` -/
  | replayAttack
  /-- `"sign error"` -/
  | signError
  /-- `"unsupported crypto type"` -/
  | unsupportedCrypto
  /-- an invalid-length key rejected by `crypto/ecdh` -/
  | invalidKey
  /-- `"server public key is nil"` -/
  | serverPubMissing
  /-- `"private key is nil"` -/
  | privMissing
  deriving DecidableEq, Repr

/-- The three AEAD factories of `cryptoFromName` (the `newAEAD` function
values `newAES256GCM`, `newChacha20Poly1305`, `newXChacha20Poly1305`). -/
inductive CryptoKind where
  | aes256gcm
  | chacha20poly1305
  | xchacha20poly1305
  deriving DecidableEq, Repr

/-- `cryptoFromName` from `handshake_v1.go`: maps a crypto-type name to the
AEAD factory and its nonce size. -/
def cryptoFromName (name : String) : Except Err (CryptoKind × Nat) :=
  if name = "aes-256-gcm" then .ok (.aes256gcm, gcmNonceSize)
  else if name = "chacha20-poly1305" then .ok (.chacha20poly1305, 12)
  else if name = "xchacha20-poly1305" then .ok (.xchacha20poly1305, 24)
  else .error .unsupportedCrypto

/-! ## The framed AEAD record layer (`secure.go`)

The AEAD cipher instance (`cipher.AEAD`) is external; its `Seal` and `Open`
are passed to each operation as functions `seal : Bytes → Bytes → Bytes`
(nonce, plaintext ↦ ciphertext‖tag) and
`opn : Bytes → Bytes → Option Bytes` (nonce, ciphertext‖tag ↦ plaintext,
`none` on authentication failure).  The carrier (`io.Reader`/`io.Writer`)
is a byte list on the read side; on the write side short writes and write
errors are injected by an oracle: each carrier `Write` call consumes one
oracle entry (`some n` = accept up to `n` bytes, `none` = fail), and once
the oracle is exhausted the carrier accepts everything offered. -/

/-- `SecureReader` state (`secure.go`).  `nonceBase` is the 24-byte
(`maxNonceSize`) array; `pending` holds `rbuf[:readn]`, the plaintext left
over from the last record; `closed` is `inner == nil`; `errF` is the `err`
field. -/
structure SecureReader where
  nonceBase : Bytes
  nonceId : Nat
  nonceSize : Nat
  pending : Bytes
  closed : Bool
  errF : Option Err
  deriving DecidableEq, Repr

/-- `SecureWriter` state (`secure.go`). -/
structure SecureWriter where
  nonceBase : Bytes
  nonceId : Nat
  nonceSize : Nat
  closed : Bool
  errF : Option Err
  deriving DecidableEq, Repr

/-- Body shared by `SecureReader.nextNonce` and `SecureWriter.nextNonce`:
`var nonce [maxNonceSize]byte; copy(nonce[idSizeV1:nonceSize],
nonceBase[idSizeV1:]); binary.LittleEndian.PutUint64(nonce[:idSizeV1], id);
return nonce[:nonceSize]`. -/
def nonceWire (base : Bytes) (nsize id : Nat) : Bytes :=
  (setSlice (setSlice (List.replicate maxNonceSize 0) idSizeV1 nsize
      (base.drop idSizeV1)) 0 idSizeV1 (leBytes 8 id)).take nsize

/-- `SecureReader.nextNonce`: `atomic.AddUint64(&r.nonceId, 1)` then build
the wire nonce.  Returns the nonce and the updated reader. -/
def SecureReader.nextNonce (r : SecureReader) : Bytes × SecureReader :=
  let id := (r.nonceId + 1) % u64Mod
  (nonceWire r.nonceBase r.nonceSize id, { r with nonceId := id })

/-- `SecureWriter.nextNonce`: identical body on the writer. -/
def SecureWriter.nextNonce (w : SecureWriter) : Bytes × SecureWriter :=
  let id := (w.nonceId + 1) % u64Mod
  (nonceWire w.nonceBase w.nonceSize id, { w with nonceId := id })

/-- `NewSecureReader`: `nonceSize` comes from `aead.NonceSize()`;
`copy(r.nonceBase[idSizeV1:], nonce[idSizeV1:])`;
`r.nonceId = binary.LittleEndian.Uint64(nonce[:idSizeV1])`. -/
def NewSecureReader (nsize : Nat) (nonce : Bytes) : SecureReader :=
  { nonceBase := setSlice (List.replicate maxNonceSize 0) idSizeV1 maxNonceSize
      (nonce.drop idSizeV1)
    nonceId := decLE (nonce.take idSizeV1)
    nonceSize := nsize
    pending := []
    closed := false
    errF := none }

/-- `NewSecureWriter`: same fields on the writer. -/
def NewSecureWriter (nsize : Nat) (nonce : Bytes) : SecureWriter :=
  { nonceBase := setSlice (List.replicate maxNonceSize 0) idSizeV1 maxNonceSize
      (nonce.drop idSizeV1)
    nonceId := decLE (nonce.take idSizeV1)
    nonceSize := nsize
    closed := false
    errF := none }

/-- Result of `SecureReader.read` (the record-fetching helper): the updated
reader, the remaining carrier bytes, and the error, if any. -/
structure FetchRes where
  st : SecureReader
  input : Bytes
  e : Option Err
  deriving DecidableEq, Repr

/-- `SecureReader.read` from `secure.go`: read the 2-byte header, classify
the length, read the body, decrypt with the next nonce into `rbuf`.
`io.ReadFull` yields `io.EOF` when zero bytes were available and
`io.ErrUnexpectedEOF` on a partial read; both header and body reads consume
whatever bytes were available. -/
def SecureReader.read (opn : Bytes → Bytes → Option Bytes) (r : SecureReader)
    (input : Bytes) : FetchRes :=
  if input.length < gcmHeaderSize then
    ⟨r, input.drop gcmHeaderSize,
      some (if input.isEmpty then .eof else .unexpectedEof)⟩
  else
    let rawLen := decLE (input.take gcmHeaderSize)
    let rest := input.drop gcmHeaderSize
    if rawLen = 0 then ⟨r, rest, some .eof⟩
    else if gcmPacketCache - gcmHeaderSize < rawLen then ⟨r, rest, some .tooLong⟩
    else if rawLen ≤ gcmTagSize then ⟨r, rest, some .tooShort⟩
    else if rest.length < rawLen then
      ⟨r, rest.drop rawLen,
        some (if rest.isEmpty then .eof else .unexpectedEof)⟩
    else
      let p := r.nextNonce
      match opn p.1 (rest.take rawLen) with
      | none => ⟨p.2, rest.drop rawLen, some .cipher⟩
      | some pt => ⟨{ p.2 with pending := pt }, rest.drop rawLen, none⟩

/-- Result of `SecureReader.Read`: the bytes copied out, the updated reader,
the remaining carrier bytes, and the error, if any. -/
structure ReadRes where
  out : Bytes
  st : SecureReader
  input : Bytes
  e : Option Err
  deriving DecidableEq, Repr

/-- `SecureReader.Read` from `secure.go`: closed / stored-error checks, an
optional record fetch when no plaintext is pending, then
`n = copy(b, r.rbuf[:r.readn])` for a destination of length `k`. -/
def SecureReader.Read (opn : Bytes → Bytes → Option Bytes) (r : SecureReader)
    (input : Bytes) (k : Nat) : ReadRes :=
  if r.closed then ⟨[], r, input, some .closedPipe⟩
  else
    match r.errF with
    | some e => ⟨[], r, input, some e⟩
    | none =>
      let f : FetchRes :=
        if r.pending.isEmpty then r.read opn input else ⟨r, input, none⟩
      match f.e with
      | some e => ⟨[], f.st, f.input, some e⟩
      | none =>
        let n := min k f.st.pending.length
        ⟨f.st.pending.take n, { f.st with pending := f.st.pending.drop n },
          f.input, none⟩

/-- `SecureReader.Close`: drop the carrier and buffers, and set the sticky
error to `io.ErrClosedPipe` if none is stored; returns the stored error. -/
def SecureReader.Close (r : SecureReader) : SecureReader × Err :=
  let e := r.errF.getD .closedPipe
  ({ r with closed := true, pending := [], errF := some e }, e)

/-- Result of a writer operation: the bytes that reached the carrier, the
returned count `n`, the updated writer, the remaining write oracle, and the
error, if any. -/
structure WriteRes where
  out : Bytes
  n : Nat
  st : SecureWriter
  oracle : List (Option Nat)
  e : Option Err
  deriving DecidableEq, Repr

/-- The flush loop inside `SecureWriter.write`: keep calling the carrier's
`Write` on the unwritten tail until everything is flushed or a call fails.
Each call consumes one oracle entry; with the oracle exhausted the carrier
accepts the rest in one call.  Returns the bytes accepted, the remaining
oracle, and whether the flush completed. -/
def flushAll : List (Option Nat) → Bytes → Bytes × List (Option Nat) × Bool
  | [], p => (p, [], true)
  | o :: os, p =>
    if p.isEmpty then ([], o :: os, true)
    else
      match o with
      | none => ([], os, false)
      | some m =>
        let k := min m p.length
        let r := flushAll os (p.drop k)
        (p.take k ++ r.1, r.2.1, r.2.2)

/-- `SecureWriter.write` from `secure.go`: truncate to `gcmPacketSize`,
write the length field `rawLen - gcmHeaderSize` little-endian, seal with the
next nonce, and flush `header ‖ ciphertext ‖ tag`.  On success `n` is the
chunk length; on a carrier error `n = 0` and the error is returned. -/
def SecureWriter.write (sealFn : Bytes → Bytes → Bytes) (w : SecureWriter)
    (oracle : List (Option Nat)) (b : Bytes) : WriteRes :=
  let b' := b.take gcmPacketSize
  let rawLen := gcmHeaderSize + b'.length + gcmTagSize
  let p := w.nextNonce
  let record := leBytes 2 (rawLen - gcmHeaderSize) ++ sealFn p.1 b'
  let f := flushAll oracle record
  if f.2.2 then ⟨f.1, b'.length, p.2, f.2.1, none⟩
  else ⟨f.1, 0, p.2, f.2.1, some .carrier⟩

/-- The chunking loop inside `SecureWriter.Write`: `for len(b) > 0`, call
`write`, accumulate `n`, advance `b = b[writen:]`.  On success of one chunk
the advance is by the chunk's length `(b.take gcmPacketSize).length`. -/
def writeLoop (sealFn : Bytes → Bytes → Bytes) (w : SecureWriter)
    (oracle : List (Option Nat)) (b : Bytes) : WriteRes :=
  if hb : b.isEmpty then ⟨[], 0, w, oracle, none⟩
  else
    let r := w.write sealFn oracle b
    match r.e with
    | some e => ⟨r.out, 0, r.st, r.oracle, some e⟩
    | none =>
      let rest := writeLoop sealFn r.st r.oracle (b.drop (b.take gcmPacketSize).length)
      ⟨r.out ++ rest.out, (b.take gcmPacketSize).length + rest.n, rest.st,
        rest.oracle, rest.e⟩
  termination_by b.length
  decreasing_by
    simp only [List.length_drop, List.length_take]
    have : b.length ≠ 0 := by simpa [List.isEmpty_iff_length_eq_zero] using hb
    simp only [gcmPacketSize]
    omega

/-- `SecureWriter.Write` from `secure.go`: the closed / stored-error checks
in front of the chunking loop.  Note that a loop error is returned but not
stored into `errF`. -/
def SecureWriter.Write (sealFn : Bytes → Bytes → Bytes) (w : SecureWriter)
    (oracle : List (Option Nat)) (b : Bytes) : WriteRes :=
  if w.closed then ⟨[], 0, w, oracle, some .closedPipe⟩
  else
    match w.errF with
    | some e => ⟨[], 0, w, oracle, some e⟩
    | none => writeLoop sealFn w oracle b

/-- `SecureWriter.Close`: like the reader's. -/
def SecureWriter.Close (w : SecureWriter) : SecureWriter × Err :=
  let e := w.errF.getD .closedPipe
  ({ w with closed := true, errF := some e }, e)

/-- A sequence of `SecureReader.Read` calls with destination sizes `ks`,
stopping at the first error; collects everything read. -/
def readMany (opn : Bytes → Bytes → Option Bytes) (r : SecureReader)
    (input : Bytes) : List Nat → ReadRes
  | [] => ⟨[], r, input, none⟩
  | k :: ks =>
    let s := r.Read opn input k
    match s.e with
    | some e => ⟨s.out, s.st, s.input, some e⟩
    | none =>
      let rest := readMany opn s.st s.input ks
      ⟨s.out ++ rest.out, rest.st, rest.input, rest.e⟩

/-- A sequence of `SecureWriter.Write` calls, one per element of `bs`, each
against an ideal carrier (empty oracle), stopping at the first error. -/
def writeSeq (sealFn : Bytes → Bytes → Bytes) (w : SecureWriter) :
    List Bytes → WriteRes
  | [] => ⟨[], 0, w, [], none⟩
  | b :: bs =>
    let r := w.Write sealFn [] b
    match r.e with
    | some e => ⟨r.out, r.n, r.st, [], some e⟩
    | none =>
      let rest := writeSeq sealFn r.st bs
      ⟨r.out ++ rest.out, r.n + rest.n, rest.st, [], rest.e⟩

/-! ## Handshake v1 (`handshake_v1.go`) and the server context -/

/-- The external cryptographic primitives the handshake uses, as functions:
`pub` is `ecdh.PrivateKey.PublicKey().Bytes()`, `dh` is the X25519 shared
secret `ecdhKey`/`privateKey.ECDH`, `hkdf` is `hkdfKey(sha256.New, secret,
salt, info, length)` (`info` as its byte string), `hmac` is the
HMAC-SHA256 `h.Sum(nil)` over the written message. -/
structure Prims where
  pub : Bytes → Bytes
  dh : Bytes → Bytes → Bytes
  hkdf : Bytes → Bytes → Bytes → Nat → Bytes
  hmac : Bytes → Bytes → Bytes

/-- Lowercase hex digit, as in `encoding/hex`. -/
def hexDigit (n : Nat) : Nat :=
  if n < 10 then 48 + n else 87 + n

/-- `hex.EncodeToString` as a byte string of ASCII codes. -/
def hexEncode (bs : Bytes) : Bytes :=
  bs.flatMap fun b => [hexDigit (b / 16), hexDigit (b % 16)]

/-- Modelled from the spec: `types.TimeWindow(unix, tolerance)` from the
external `github.com/taodev/pkg/types` dependency, the current time bucket
`floor(unix_seconds / Tolerance)`. -/
def timeWindow (unix tol : Nat) : Nat := unix / tol

/-- `ClientConfig` (the fields the handshake reads). -/
structure ClientConfig where
  Tolerance : Nat
  PrivateKey : Bytes
  ServerPub : Bytes
  CryptoType : String
  deriving DecidableEq, Repr

/-- `ServerContext` (the fields the handshake and replay cache read).
`idMap` is the replay cache `map[uint64]int64` as an association list,
`running` the `atomic.Bool`. -/
structure ServerContext where
  Tolerance : Nat
  PrivateKey : Bytes
  AuthorizedKeys : List Bytes
  AuthorizedPath : String
  CryptoType : String
  idMap : List (Nat × Nat)
  running : Bool
  deriving DecidableEq, Repr

/-- `ServerContext.CheckReplay`: after shutdown every check reports "seen";
otherwise report whether `id` is cached, inserting it with the current time
when it is new.  Returns the report and the updated context. -/
def ServerContext.CheckReplay (ctx : ServerContext) (id now : Nat) :
    Bool × ServerContext :=
  if !ctx.running then (true, ctx)
  else if ctx.idMap.any fun e => e.1 = id then (true, ctx)
  else (false, { ctx with idMap := (id, now) :: ctx.idMap })

/-- One sweep of `ServerContext.replayGC`'s ticker body at time `now`:
evict every entry older than `Tolerance` seconds. -/
def ServerContext.sweep (ctx : ServerContext) (now : Nat) : ServerContext :=
  { ctx with idMap := ctx.idMap.filter fun e => !(decide (ctx.Tolerance < now - e.2)) }

/-- A sequence of `replayGC` sweeps at the given times. -/
def ServerContext.sweeps (ctx : ServerContext) (ts : List Nat) : ServerContext :=
  ts.foldl ServerContext.sweep ctx

/-- The result both handshakes return (`handshakeInfo`): the AEAD factory
`newCrypto`, the session key and the derived base nonce. -/
structure handshakeInfo where
  newCrypto : CryptoKind
  key : Bytes
  nonce : Bytes
  deriving DecidableEq, Repr

/-- `clientHandshake` from `handshake_v1.go`.  The randomness consumed from
`config.Rand` is passed explicitly: `genPriv` is the key
`curve.GenerateKey` would produce when `config.PrivateKey` is absent, and
`idBytes` the 8 random id bytes.  `now` is `time.Now().Unix()`.  On success
it returns the 72-byte packet written to the carrier and the
`handshakeInfo`. -/
def clientHandshake (P : Prims) (cfg : ClientConfig) (genPriv idBytes : Bytes)
    (now : Nat) : Except Err (Bytes × handshakeInfo) :=
  if cfg.ServerPub.isEmpty then .error .serverPubMissing
  else
    match cryptoFromName cfg.CryptoType with
    | .error e => .error e
    | .ok (kind, nonceSize) =>
      let priv := if cfg.PrivateKey.isEmpty then genPriv else cfg.PrivateKey
      -- `curve.NewPrivateKey` rejects keys that are not exactly 32 bytes
      if cfg.PrivateKey.isEmpty = false ∧ cfg.PrivateKey.length ≠ keySizeV1 then
        .error .invalidKey
      else
        let buf0 := List.replicate packetSizeV1 0
        let buf1 := setSlice buf0 keyStartV1 keyEndV1 (P.pub priv)
        let buf2 := setSlice buf1 idStartV1 idEndV1 idBytes
        -- `curve.NewPublicKey` rejects public keys that are not 32 bytes
        if cfg.ServerPub.length ≠ keySizeV1 then .error .invalidKey
        else
          let sharedKey := P.dh priv cfg.ServerPub
          let hexTimeWindow := hexEncode (leBytes 8 (timeWindow now cfg.Tolerance))
          let key := P.hkdf sharedKey (buf2.take idEndV1) hexTimeWindow keySizeV1
          let sign := P.hmac key (buf2.take idEndV1)
          let buf3 := setSlice buf2 signStartV1 signEndV1 sign
          let nonce := P.hkdf key ((buf3.drop signStartV1).take signSizeV1)
            hexTimeWindow nonceSize
          .ok (buf3, ⟨kind, key, nonce⟩)

/-- `serverHandshake` from `handshake_v1.go`.  `packet` is the byte stream
offered by the carrier, `now` is `time.Now().Unix()`.  The updated context
is returned in every case because `CheckReplay` mutates the shared context
in place even when a later step fails. -/
def serverHandshake (P : Prims) (ctx : ServerContext) (packet : Bytes)
    (now : Nat) : ServerContext × Except Err handshakeInfo :=
  if ctx.PrivateKey.isEmpty then (ctx, .error .privMissing)
  else
    match cryptoFromName ctx.CryptoType with
    | .error e => (ctx, .error e)
    | .ok (kind, nonceSize) =>
      -- io.ReadFull of the 72-byte packet
      if packet.length < packetSizeV1 then
        (ctx, .error (if packet.isEmpty then .eof else .unexpectedEof))
      else
        let buf := packet.take packetSizeV1
        let id := decLE ((buf.drop idStartV1).take idSizeV1)
        let c := ctx.CheckReplay id now
        if c.1 then (c.2, .error .replayAttack)
        else
          let clientSign := buf.drop signStartV1
          if ctx.PrivateKey.length ≠ keySizeV1 then (c.2, .error .invalidKey)
          else
            let sharedKey := P.dh ctx.PrivateKey (buf.take keyEndV1)
            let hexTimeWindow := hexEncode (leBytes 8 (timeWindow now ctx.Tolerance))
            let key := P.hkdf sharedKey (buf.take idEndV1) hexTimeWindow keySizeV1
            let sign := P.hmac key (buf.take idEndV1)
            if sign ≠ clientSign then (c.2, .error .signError)
            else
              let nonce := P.hkdf key clientSign hexTimeWindow nonceSize
              (c.2, .ok ⟨kind, key, nonce⟩)

/-- `Conn.init` from `conn.go`: build the connection's `SecureReader` and
`SecureWriter` from the one session `key` and the one derived `nonce`.  The
two `newAEAD(key)` calls construct AEAD instances from the same key;
`aeadNonceSize key` models the `NonceSize()` that both report. -/
def connInit (aeadNonceSize : Bytes → Nat) (key nonce : Bytes) :
    SecureReader × SecureWriter :=
  (NewSecureReader (aeadNonceSize key) nonce, NewSecureWriter (aeadNonceSize key) nonce)

/-- The writer state after emitting `n` records (each record advances the
nonce counter once, via `nextNonce`). -/
def SecureWriter.afterRecords (w : SecureWriter) : Nat → SecureWriter
  | 0 => w
  | n + 1 => ((w.afterRecords n).nextNonce).2

/-- The reader state after consuming `n` records. -/
def SecureReader.afterRecords (r : SecureReader) : Nat → SecureReader
  | 0 => r
  | n + 1 => ((r.afterRecords n).nextNonce).2

/-- The wire nonce the writer uses for its `n`-th record (0-based). -/
def SecureWriter.recordNonce (w : SecureWriter) (n : Nat) : Bytes :=
  ((w.afterRecords n).nextNonce).1

/-- The wire nonce the reader uses for its `n`-th record (0-based). -/
def SecureReader.recordNonce (r : SecureReader) (n : Nat) : Bytes :=
  ((r.afterRecords n).nextNonce).1

/-! ## Concrete instances used by witnesses and counterexamples

A trivially correct AEAD (`toySeal`/`toyOpn`, appending and checking a
constant tag) and arithmetic stand-ins for the handshake primitives.  The
claim theorems are proved for arbitrary primitives satisfying the interface
hypotheses; these instances only discharge those hypotheses on concrete
inputs. -/

def toySeal (nc m : Bytes) : Bytes :=
  m ++ List.replicate gcmTagSize 0

def toyOpn (nc c : Bytes) : Option Bytes :=
  if gcmTagSize ≤ c.length ∧ c.drop (c.length - gcmTagSize) = List.replicate gcmTagSize 0
  then some (c.take (c.length - gcmTagSize)) else none

def toyPub (k : Bytes) : Bytes := (k ++ List.replicate keySizeV1 0).take keySizeV1

def toyDh (a b : Bytes) : Bytes := List.replicate keySizeV1 ((a.sum + b.sum) % 256)

def toyHkdf (s salt info : Bytes) (n : Nat) : Bytes :=
  List.replicate n ((s.sum + salt.sum + info.sum + n) % 256)

def toyHmac (k m : Bytes) : Bytes :=
  List.replicate signSizeV1 ((2 * k.sum + m.sum) % 256)

def toyPrims : Prims := ⟨toyPub, toyDh, toyHkdf, toyHmac⟩

def privCW : Bytes := List.replicate keySizeV1 1

def privSW : Bytes := List.replicate keySizeV1 2

def idW : Bytes := List.replicate idSizeV1 3

def cfgW : ClientConfig := ⟨120, privCW, toyPub privSW, "aes-256-gcm"⟩

def ctxW : ServerContext := ⟨120, privSW, [], "", "aes-256-gcm", [], true⟩

/-- A server context whose authorized-key set is non-empty and does not
contain the client public key `toyPub privCW`. -/
def ctx6 : ServerContext :=
  { ctxW with AuthorizedKeys := [List.replicate keySizeV1 9] }

/-- The packet the toy client sends (used against `ctx6`). -/
def pkt6 : Bytes :=
  match clientHandshake toyPrims cfgW [] idW 1000 with
  | .ok (p, _) => p
  | .error _ => []

/-! ## Derived descriptions of the record stream -/

/-- The chunking `SecureWriter.Write` performs: split `b` into successive
pieces of at most `gcmPacketSize` bytes. -/
def chunkSplit (b : Bytes) : List Bytes :=
  if hb : b.isEmpty then []
  else b.take gcmPacketSize :: chunkSplit (b.drop (b.take gcmPacketSize).length)
  termination_by b.length
  decreasing_by
    simp only [List.length_drop, List.length_take]
    have : b.length ≠ 0 := by simpa [List.isEmpty_iff_length_eq_zero] using hb
    simp only [gcmPacketSize]
    omega

/-- The nonce counter value after emitting `n` records from counter `id`:
`n` wrapping increments. -/
def advId (id : Nat) : Nat → Nat
  | 0 => id
  | n + 1 => advId ((id + 1) % u64Mod) n

/-- The byte stream a writer with state `(base, nsize, id)` puts on the
carrier for the successive plaintext chunks `cs`: length-prefixed sealed
records under consecutive pre-incremented nonces. -/
def encodeChunks (sealFn : Bytes → Bytes → Bytes) (base : Bytes) (nsize : Nat) :
    Nat → List Bytes → Bytes
  | _, [] => []
  | id, c :: cs =>
    (leBytes 2 (c.length + gcmTagSize) ++
      sealFn (nonceWire base nsize ((id + 1) % u64Mod)) c) ++
    encodeChunks sealFn base nsize ((id + 1) % u64Mod) cs

/-- The 8-byte id field of a received handshake packet, as `serverHandshake`
slices it out of the 72-byte buffer. -/
def handshakeIdSlice (pkt : Bytes) : Bytes :=
  ((pkt.take packetSizeV1).drop idStartV1).take idSizeV1

/-! ## Byte-level lemmas -/

theorem leBytes_length (k n : Nat) : (leBytes k n).length = k := by
  induction k generalizing n with
  | zero => simp [leBytes]
  | succ k ih => simp [leBytes, ih]

theorem leBytes_head_lt (k n : Nat) (h : 0 < k) :
    (leBytes k n).headD 0 < 256 := by
  cases k with
  | zero => omega
  | succ k => simp [leBytes]; omega

theorem decLE_leBytes (k n : Nat) : decLE (leBytes k n) = n % 256 ^ k := by
  induction k generalizing n with
  | zero => simp [leBytes, decLE, Nat.mod_one]
  | succ k ih =>
    simp only [leBytes, decLE, ih]
    rw [pow_succ, mul_comm (256 ^ k) 256, Nat.mod_mul]

theorem listCopy_of_length_le (dst src : Bytes) (h : dst.length ≤ src.length) :
    listCopy dst src = src.take dst.length := by
  simp [listCopy, List.drop_eq_nil_of_le h]

theorem listCopy_exact (dst src : Bytes) (h : src.length = dst.length) :
    listCopy dst src = src := by
  rw [listCopy_of_length_le dst src h.ge, ← h, List.take_length]

theorem setSlice_window (a src : Bytes) (i j : Nat) (hij : i ≤ j)
    (hj : j ≤ a.length) (h : j - i ≤ src.length) :
    setSlice a i j src = a.take i ++ src.take (j - i) ++ a.drop j := by
  have hw : ((a.take j).drop i).length = j - i := by
    simp [List.length_drop, List.length_take]
    omega
  rw [setSlice, listCopy_of_length_le _ _ (by rw [hw]; exact h), hw]

theorem setSlice_exact (a src : Bytes) (i j : Nat) (hij : i ≤ j)
    (hj : j ≤ a.length) (h : src.length = j - i) :
    setSlice a i j src = a.take i ++ src ++ a.drop j := by
  rw [setSlice_window a src i j hij hj h.ge, ← h, List.take_length]

theorem setSlice_length (a src : Bytes) (i j : Nat) (hij : i ≤ j)
    (hj : j ≤ a.length) (h : j - i ≤ src.length) :
    (setSlice a i j src).length = a.length := by
  rw [setSlice_window a src i j hij hj h]
  simp [List.length_take, List.length_drop]
  omega

/-- The wire nonce, unfolded: the 8 little-endian counter bytes followed by
the base suffix, truncated to the nonce size. -/
theorem nonceWire_eq (base : Bytes) (nsize id : Nat) (hb : base.length = maxNonceSize)
    (h8 : idSizeV1 ≤ nsize) (h24 : nsize ≤ maxNonceSize) :
    nonceWire base nsize id = leBytes 8 id ++ (base.drop idSizeV1).take (nsize - idSizeV1) := by
  simp only [idSizeV1, maxNonceSize] at hb h8 h24 ⊢
  have hsl : (base.drop 8).length = 16 := by simp [hb]
  have hseg : ((base.drop 8).take (nsize - 8)).length = nsize - 8 := by
    simp only [List.length_take, hsl]
    omega
  have h1 : setSlice (List.replicate 24 0) 8 nsize (base.drop 8)
      = List.replicate 8 0 ++ (base.drop 8).take (nsize - 8) ++ List.replicate (24 - nsize) 0 := by
    rw [setSlice_window _ _ _ _ h8 (by simpa using h24) (by rw [hsl]; omega)]
    rw [List.take_replicate, List.drop_replicate]
    have : min 8 24 = 8 := rfl
    rw [this]
  have h2 : setSlice (List.replicate 8 0 ++ (base.drop 8).take (nsize - 8)
        ++ List.replicate (24 - nsize) 0) 0 8 (leBytes 8 id)
      = leBytes 8 id ++ ((base.drop 8).take (nsize - 8) ++ List.replicate (24 - nsize) 0) := by
    rw [setSlice_exact _ _ 0 8 (by omega)
      (by simp only [List.length_append, List.length_replicate, hseg]; omega)
      (by simp [leBytes_length])]
    rw [List.take_zero, List.nil_append, List.append_assoc,
      List.drop_left' (by simp : (List.replicate 8 (0 : Nat)).length = 8)]
  simp only [nonceWire, idSizeV1, maxNonceSize, h1, h2]
  rw [List.take_append_eq_append_take,
    List.take_of_length_le (by rw [leBytes_length]; omega), leBytes_length,
    List.take_append_eq_append_take, List.take_of_length_le (le_of_eq hseg), hseg,
    Nat.sub_self, List.take_zero, List.append_nil]

/-! ## Lemmas about the writer -/

theorem chunkSplit_nil : chunkSplit [] = [] := by
  rw [chunkSplit]
  simp

theorem chunkSplit_cons (b : Bytes) (hb : b.isEmpty = false) :
    chunkSplit b
      = b.take gcmPacketSize :: chunkSplit (b.drop (b.take gcmPacketSize).length) := by
  rw [chunkSplit]
  simp [hb]

theorem drop_take_length (b : Bytes) (n : Nat) :
    b.drop (b.take n).length = b.drop n := by
  rw [List.length_take]
  rcases le_total n b.length with h | h
  · rw [min_eq_left h]
  · rw [min_eq_right h, List.drop_of_length_le h, List.drop_of_length_le le_rfl]

theorem chunkSplit_flatten (b : Bytes) : (chunkSplit b).flatten = b := by
  suffices h : ∀ n b, List.length b ≤ n → (chunkSplit b).flatten = b from
    h b.length b le_rfl
  intro n
  induction n with
  | zero =>
    intro b hb
    have : b = [] := List.length_eq_zero.mp (Nat.le_zero.mp hb)
    subst this
    simp [chunkSplit_nil]
  | succ n ih =>
    intro b hb
    by_cases hbe : b.isEmpty
    · rw [List.isEmpty_iff] at hbe
      subst hbe
      simp [chunkSplit_nil]
    · have hbf : b.isEmpty = false := by simpa using hbe
      have hlen : 0 < b.length := List.length_pos.mpr (by simpa using hbe)
      rw [chunkSplit_cons b hbf, List.flatten_cons, drop_take_length]
      rw [ih _ (by simp only [List.length_drop, gcmPacketSize]; omega)]
      exact List.take_append_drop _ b

theorem chunkSplit_mem (b c : Bytes) (h : c ∈ chunkSplit b) :
    1 ≤ c.length ∧ c.length ≤ gcmPacketSize := by
  suffices hs : ∀ n b, List.length b ≤ n → c ∈ chunkSplit b →
      1 ≤ c.length ∧ c.length ≤ gcmPacketSize from hs b.length b le_rfl h
  clear h
  intro n
  induction n with
  | zero =>
    intro b hb h
    have : b = [] := List.length_eq_zero.mp (Nat.le_zero.mp hb)
    subst this
    rw [chunkSplit_nil] at h
    simp at h
  | succ n ih =>
    intro b hb h
    by_cases hbe : b.isEmpty
    · rw [List.isEmpty_iff] at hbe
      subst hbe
      rw [chunkSplit_nil] at h
      simp at h
    · have hbf : b.isEmpty = false := by simpa using hbe
      have hlen : 0 < b.length := List.length_pos.mpr (by simpa using hbe)
      rw [chunkSplit_cons b hbf] at h
      rcases List.mem_cons.mp h with h | h
      · subst h
        refine ⟨?_, ?_⟩
        · simp only [List.length_take, gcmPacketSize]
          omega
        · simp [List.length_take]
      · exact ih _ (by simp only [List.length_drop, List.length_take, gcmPacketSize]; omega) h

theorem advId_add (id m n : Nat) : advId id (m + n) = advId (advId id m) n := by
  induction m generalizing id with
  | zero => simp [advId]
  | succ m ih =>
    rw [Nat.succ_add, advId, advId, ih]

theorem advId_succ (id n : Nat) : advId ((id + 1) % u64Mod) n = advId id (n + 1) := by
  rw [Nat.add_comm n 1, advId_add]
  rfl

theorem encodeChunks_append (sealFn : Bytes → Bytes → Bytes) (base : Bytes)
    (nsize : Nat) (cs1 cs2 : List Bytes) (id : Nat) :
    encodeChunks sealFn base nsize id (cs1 ++ cs2)
      = encodeChunks sealFn base nsize id cs1
        ++ encodeChunks sealFn base nsize (advId id cs1.length) cs2 := by
  induction cs1 generalizing id with
  | nil => simp [encodeChunks, advId]
  | cons c cs ih =>
    simp only [List.cons_append, encodeChunks, List.length_cons, List.append_assoc,
      List.append_eq]
    rw [ih]
    have : advId id (cs.length + 1) = advId ((id + 1) % u64Mod) cs.length := by
      rw [Nat.add_comm cs.length 1, advId_add, advId, advId]
    rw [this]

/-- The chunking loop against an ideal carrier: it emits exactly the encoded
records of the chunk split, accepts all of `b`, and advances only the nonce
counter. -/
theorem writeLoop_spec (sealFn : Bytes → Bytes → Bytes) :
    ∀ b (w : SecureWriter), writeLoop sealFn w [] b
      = ⟨encodeChunks sealFn w.nonceBase w.nonceSize w.nonceId (chunkSplit b),
        b.length, { w with nonceId := advId w.nonceId (chunkSplit b).length },
        [], none⟩ := by
  suffices hs : ∀ n b, List.length b ≤ n → ∀ w : SecureWriter,
      writeLoop sealFn w [] b
        = ⟨encodeChunks sealFn w.nonceBase w.nonceSize w.nonceId (chunkSplit b),
          b.length, { w with nonceId := advId w.nonceId (chunkSplit b).length },
          [], none⟩ from fun b => hs b.length b le_rfl
  intro n
  induction n with
  | zero =>
    intro b hb w
    have : b = [] := List.length_eq_zero.mp (Nat.le_zero.mp hb)
    subst this
    rw [writeLoop]
    simp [chunkSplit_nil, encodeChunks, advId]
  | succ n ih =>
    intro b hb w
    by_cases hbe : b.isEmpty
    · rw [List.isEmpty_iff] at hbe
      subst hbe
      rw [writeLoop]
      simp [chunkSplit_nil, encodeChunks, advId]
    · have hbf : b.isEmpty = false := by simpa using hbe
      have hlen : 0 < b.length := List.length_pos.mpr (by simpa using hbe)
      rw [writeLoop]
      simp only [hbf, Bool.false_eq_true, ↓reduceDIte, SecureWriter.write,
        SecureWriter.nextNonce, flushAll, ↓reduceIte]
      rw [drop_take_length]
      rw [ih _ (by simp only [List.length_drop, gcmPacketSize]; omega)]
      rw [chunkSplit_cons b hbf]
      simp only [encodeChunks, List.length_cons, drop_take_length]
      have harith : gcmHeaderSize + (List.take gcmPacketSize b).length + gcmTagSize
          - gcmHeaderSize = (List.take gcmPacketSize b).length + gcmTagSize := by
        simp only [gcmHeaderSize, gcmTagSize]
        omega
      have hcount : (List.take gcmPacketSize b).length + (List.drop gcmPacketSize b).length
          = b.length := by
        simp only [List.length_take, List.length_drop]
        omega
      rw [harith, hcount, advId_succ]

/-- A successful `Write` sequence against an ideal carrier: the stream is the
encoding of all chunks of all the segments, and the total count is the total
payload length. -/
theorem writeSeq_spec (sealFn : Bytes → Bytes → Bytes) :
    ∀ (bs : List Bytes) (w : SecureWriter), w.closed = false → w.errF = none →
    writeSeq sealFn w bs
      = ⟨encodeChunks sealFn w.nonceBase w.nonceSize w.nonceId
            ((bs.map chunkSplit).flatten),
        bs.flatten.length,
        { w with nonceId := advId w.nonceId ((bs.map chunkSplit).flatten).length },
        [], none⟩ := by
  intro bs
  induction bs with
  | nil =>
    intro w hc he
    simp [writeSeq, encodeChunks, advId]
  | cons b bs ih =>
    intro w hc he
    rw [writeSeq]
    simp only [SecureWriter.Write, hc, Bool.false_eq_true, ↓reduceIte, he]
    rw [writeLoop_spec]
    simp only
    rw [ih _ (by simp [hc]) (by simp [he])]
    simp only [List.map_cons, List.flatten_cons, List.length_append, List.flatten_cons]
    rw [encodeChunks_append, advId_add, hc, he]

/-! ## Lemmas about the reader -/

theorem decLE_leBytes2 (n : Nat) (h : n < 65536) : decLE (leBytes 2 n) = n := by
  rw [decLE_leBytes]
  exact Nat.mod_eq_of_lt (by norm_num; omega)

/-- Fetching one well-formed record: the reader consumes exactly the record,
decrypts it with the same pre-incremented nonce the writer used, and stores
the plaintext chunk. -/
theorem read_record (opn : Bytes → Bytes → Option Bytes)
    (sealFn : Bytes → Bytes → Bytes)
    (hSeal : ∀ nc m, (sealFn nc m).length = m.length + gcmTagSize)
    (hOpen : ∀ nc m, opn nc (sealFn nc m) = some m)
    (base : Bytes) (nsize id : Nat) (p c rest : Bytes)
    (hc1 : 1 ≤ c.length) (hc2 : c.length ≤ gcmPacketSize) :
    SecureReader.read opn ⟨base, id, nsize, p, false, none⟩
        ((leBytes 2 (c.length + gcmTagSize)
          ++ sealFn (nonceWire base nsize ((id + 1) % u64Mod)) c) ++ rest)
      = ⟨⟨base, (id + 1) % u64Mod, nsize, c, false, none⟩, rest, none⟩ := by
  simp only [gcmPacketSize] at hc2
  have hlen2 : (leBytes 2 (c.length + gcmTagSize)).length = gcmHeaderSize :=
    leBytes_length 2 _
  have hsl : (sealFn (nonceWire base nsize ((id + 1) % u64Mod)) c).length
      = c.length + gcmTagSize := hSeal _ _
  have htake : ((leBytes 2 (c.length + gcmTagSize)
        ++ sealFn (nonceWire base nsize ((id + 1) % u64Mod)) c) ++ rest).take
        gcmHeaderSize = leBytes 2 (c.length + gcmTagSize) := by
    rw [List.append_assoc]
    exact List.take_left' hlen2
  have hdrop : ((leBytes 2 (c.length + gcmTagSize)
        ++ sealFn (nonceWire base nsize ((id + 1) % u64Mod)) c) ++ rest).drop
        gcmHeaderSize
      = sealFn (nonceWire base nsize ((id + 1) % u64Mod)) c ++ rest := by
    rw [List.append_assoc]
    exact List.drop_left' hlen2
  have hdec : decLE (((leBytes 2 (c.length + gcmTagSize)
        ++ sealFn (nonceWire base nsize ((id + 1) % u64Mod)) c) ++ rest).take
        gcmHeaderSize) = c.length + gcmTagSize := by
    rw [htake]
    exact decLE_leBytes2 _ (by simp only [gcmTagSize]; omega)
  have hlentot : ¬ (((leBytes 2 (c.length + gcmTagSize)
        ++ sealFn (nonceWire base nsize ((id + 1) % u64Mod)) c) ++ rest).length
        < gcmHeaderSize) := by
    simp only [List.length_append, hlen2]
    simp only [gcmHeaderSize]
    omega
  rw [SecureReader.read, if_neg hlentot, hdec, hdrop]
  rw [if_neg (by simp only [gcmTagSize]; omega)]
  rw [if_neg (by simp only [gcmPacketCache, gcmHeaderSize, gcmPacketSize, gcmTagSize]; omega)]
  rw [if_neg (by simp only [gcmTagSize]; omega)]
  rw [if_neg (by rw [List.length_append, hsl]; omega)]
  rw [List.take_left' hsl, List.drop_left' hsl]
  simp only [SecureReader.nextNonce]
  rw [hOpen]

/-- Draining a stream of encoded records: starting from pending plaintext `p`
and the encoding of chunks `cs`, enough positive-sized reads return exactly
`p ++ cs.flatten`, consume the whole stream, and then hit a clean EOF. -/
theorem readMany_drain (sealFn : Bytes → Bytes → Bytes)
    (opn : Bytes → Bytes → Option Bytes)
    (hSeal : ∀ nc m, (sealFn nc m).length = m.length + gcmTagSize)
    (hOpen : ∀ nc m, opn nc (sealFn nc m) = some m)
    (base : Bytes) (nsize : Nat) :
    ∀ (ks : List Nat) (p : Bytes) (cs : List Bytes) (id : Nat),
    (∀ k ∈ ks, 1 ≤ k) →
    (∀ c ∈ cs, 1 ≤ c.length ∧ c.length ≤ gcmPacketSize) →
    p.length + cs.flatten.length + 1 ≤ ks.length →
    ∃ r', readMany opn ⟨base, id, nsize, p, false, none⟩
        (encodeChunks sealFn base nsize id cs) ks
      = ⟨p ++ cs.flatten, r', [], some .eof⟩ := by
  intro ks
  induction ks with
  | nil =>
    intro p cs id _ _ hlen
    simp only [List.length_nil] at hlen
    omega
  | cons k ks ih =>
    intro p cs id hk hcs hlen
    have hk1 : 1 ≤ k := hk k (List.mem_cons_self k ks)
    have hks : ∀ k ∈ ks, 1 ≤ k := fun x hx => hk x (List.mem_cons_of_mem _ hx)
    by_cases hp : p.isEmpty
    · rw [List.isEmpty_iff] at hp
      subst hp
      cases cs with
      | nil =>
        refine ⟨⟨base, id, nsize, [], false, none⟩, ?_⟩
        rw [readMany]
        simp [SecureReader.Read, SecureReader.read, encodeChunks, gcmHeaderSize]
      | cons c cs =>
        have hc := hcs c (List.mem_cons_self c cs)
        have hcs' : ∀ x ∈ cs, 1 ≤ x.length ∧ x.length ≤ gcmPacketSize :=
          fun x hx => hcs x (List.mem_cons_of_mem _ hx)
        rw [readMany]
        simp only [SecureReader.Read, Bool.false_eq_true, ↓reduceIte,
          List.isEmpty_nil, encodeChunks]
        rw [read_record opn sealFn hSeal hOpen base nsize id [] c
          (encodeChunks sealFn base nsize ((id + 1) % u64Mod) cs) hc.1 hc.2]
        have hlen' : (c.drop (min k c.length)).length + cs.flatten.length + 1
            ≤ ks.length := by
          have : (c.drop (min k c.length)).length = c.length - min k c.length := by
            simp
          simp only [List.length_cons, List.flatten_cons, List.length_append,
            List.length_nil] at hlen ⊢
          omega
        obtain ⟨r', hr'⟩ := ih (c.drop (min k c.length)) cs ((id + 1) % u64Mod)
          hks hcs' hlen'
        rw [hr']
        refine ⟨r', ?_⟩
        simp only [List.flatten_cons, List.nil_append]
        rw [← List.append_assoc, List.take_append_drop]
    · have hpf : p.isEmpty = false := by simpa using hp
      rw [readMany]
      simp only [SecureReader.Read, Bool.false_eq_true, ↓reduceIte, hpf]
      have hplen : 1 ≤ p.length := by
        have := List.isEmpty_iff.not.mp (by simpa using hp)
        cases p with
        | nil => simp at hpf
        | cons x xs => simp
      have hlen' : (p.drop (min k p.length)).length + cs.flatten.length + 1
          ≤ ks.length := by
        have : (p.drop (min k p.length)).length = p.length - min k p.length := by
          simp
        simp only [List.length_cons] at hlen
        omega
      obtain ⟨r', hr'⟩ := ih (p.drop (min k p.length)) cs id hks hcs hlen'
      rw [hr']
      refine ⟨r', ?_⟩
      rw [← List.append_assoc, List.take_append_drop]

/-! ## Nonce schedule lemmas -/

theorem nonceWire_parts (base : Bytes) (nsize id : Nat)
    (hb : base.length = maxNonceSize) (h8 : idSizeV1 ≤ nsize)
    (h24 : nsize ≤ maxNonceSize) :
    (nonceWire base nsize id).take idSizeV1 = leBytes 8 id
    ∧ (nonceWire base nsize id).drop idSizeV1
        = (base.drop idSizeV1).take (nsize - idSizeV1)
    ∧ (nonceWire base nsize id).length = nsize := by
  have he := nonceWire_eq base nsize id hb h8 h24
  simp only [idSizeV1] at h8 ⊢
  simp only [maxNonceSize] at hb h24
  refine ⟨?_, ?_, ?_⟩
  · rw [he]
    exact List.take_left' (leBytes_length 8 id)
  · rw [he]
    exact List.drop_left' (leBytes_length 8 id)
  · rw [he]
    simp only [List.length_append, leBytes_length, List.length_take,
      List.length_drop, hb, idSizeV1]
    omega

theorem decLE_leBytes8_mod (x : Nat) : decLE (leBytes 8 (x % u64Mod)) = x % u64Mod := by
  rw [decLE_leBytes]
  have h : (256 : Nat) ^ 8 = u64Mod := by
    simp only [u64Mod]
    norm_num
  rw [h]
  exact Nat.mod_eq_of_lt (Nat.mod_lt _ (by simp [u64Mod]))

theorem advId_succ_right (id n : Nat) : advId id (n + 1) = (advId id n + 1) % u64Mod := by
  rw [advId_add id n 1]
  rfl

theorem writer_afterRecords (w : SecureWriter) (n : Nat) :
    w.afterRecords n = { w with nonceId := advId w.nonceId n } := by
  induction n with
  | zero => simp [SecureWriter.afterRecords, advId]
  | succ n ih =>
    rw [SecureWriter.afterRecords, ih]
    simp [SecureWriter.nextNonce, advId_succ_right]

theorem reader_afterRecords (r : SecureReader) (n : Nat) :
    r.afterRecords n = { r with nonceId := advId r.nonceId n } := by
  induction n with
  | zero => simp [SecureReader.afterRecords, advId]
  | succ n ih =>
    rw [SecureReader.afterRecords, ih]
    simp [SecureReader.nextNonce, advId_succ_right]

/-! ## Claim theorems: the record layer -/

/-- **C4.**  For every `SecureReader` and `SecureWriter` (any state reachable
from the constructors: 24-byte `nonceBase` array, nonce size between 8 and
24), the wire nonce of each record is the 64-bit counter little-endian in
bytes `[0..8)` followed by the fixed `nonceBase` suffix, truncated to the
AEAD's nonce size; the counter is pre-incremented (`atomic.AddUint64`
returns the new value) so the first record uses `initial_counter + 1`
(counter arithmetic is mod `2^64`), consecutive records' 8-byte prefixes
differ by exactly one increment, and the suffix never changes;
`NewSecureReader`/`NewSecureWriter` decode the initial counter from
`nonce[:8]`. -/
theorem nonce_schedule (w : SecureWriter) (r : SecureReader) (nonce : Bytes)
    (nsize : Nat)
    (hwb : w.nonceBase.length = maxNonceSize) (hw8 : idSizeV1 ≤ w.nonceSize)
    (hw24 : w.nonceSize ≤ maxNonceSize)
    (hrb : r.nonceBase.length = maxNonceSize) (hr8 : idSizeV1 ≤ r.nonceSize)
    (hr24 : r.nonceSize ≤ maxNonceSize) :
    ((w.nextNonce).1
        = leBytes 8 ((w.nonceId + 1) % u64Mod)
          ++ (w.nonceBase.drop idSizeV1).take (w.nonceSize - idSizeV1)
      ∧ (w.nextNonce).1.length = w.nonceSize
      ∧ decLE ((w.nextNonce).1.take idSizeV1) = (w.nonceId + 1) % u64Mod
      ∧ decLE (((w.nextNonce).2.nextNonce).1.take idSizeV1)
          = (decLE ((w.nextNonce).1.take idSizeV1) + 1) % u64Mod
      ∧ ((w.nextNonce).2.nextNonce).1.drop idSizeV1 = (w.nextNonce).1.drop idSizeV1
      ∧ ((w.nextNonce).2).nonceBase = w.nonceBase)
    ∧ ((r.nextNonce).1
        = leBytes 8 ((r.nonceId + 1) % u64Mod)
          ++ (r.nonceBase.drop idSizeV1).take (r.nonceSize - idSizeV1)
      ∧ (r.nextNonce).1.length = r.nonceSize
      ∧ decLE ((r.nextNonce).1.take idSizeV1) = (r.nonceId + 1) % u64Mod
      ∧ decLE (((r.nextNonce).2.nextNonce).1.take idSizeV1)
          = (decLE ((r.nextNonce).1.take idSizeV1) + 1) % u64Mod
      ∧ ((r.nextNonce).2.nextNonce).1.drop idSizeV1 = (r.nextNonce).1.drop idSizeV1
      ∧ ((r.nextNonce).2).nonceBase = r.nonceBase)
    ∧ (NewSecureWriter nsize nonce).nonceId = decLE (nonce.take idSizeV1)
    ∧ (NewSecureReader nsize nonce).nonceId = decLE (nonce.take idSizeV1) := by
  obtain ⟨hwt, hwd, hwl⟩ :=
    nonceWire_parts w.nonceBase w.nonceSize ((w.nonceId + 1) % u64Mod) hwb hw8 hw24
  obtain ⟨hwt2, hwd2, _⟩ :=
    nonceWire_parts w.nonceBase w.nonceSize (((w.nonceId + 1) % u64Mod + 1) % u64Mod)
      hwb hw8 hw24
  obtain ⟨hrt, hrd, hrl⟩ :=
    nonceWire_parts r.nonceBase r.nonceSize ((r.nonceId + 1) % u64Mod) hrb hr8 hr24
  obtain ⟨hrt2, hrd2, _⟩ :=
    nonceWire_parts r.nonceBase r.nonceSize (((r.nonceId + 1) % u64Mod + 1) % u64Mod)
      hrb hr8 hr24
  refine ⟨⟨?_, ?_, ?_, ?_, ?_, ?_⟩, ⟨?_, ?_, ?_, ?_, ?_, ?_⟩, rfl, rfl⟩
  · simp only [SecureWriter.nextNonce]
    exact nonceWire_eq _ _ _ hwb hw8 hw24
  · simpa only [SecureWriter.nextNonce] using hwl
  · simp only [SecureWriter.nextNonce]
    rw [hwt]
    exact decLE_leBytes8_mod _
  · simp only [SecureWriter.nextNonce]
    rw [hwt, hwt2, decLE_leBytes8_mod, decLE_leBytes8_mod]
  · simp only [SecureWriter.nextNonce]
    rw [hwd, hwd2]
  · simp [SecureWriter.nextNonce]
  · simp only [SecureReader.nextNonce]
    exact nonceWire_eq _ _ _ hrb hr8 hr24
  · simpa only [SecureReader.nextNonce] using hrl
  · simp only [SecureReader.nextNonce]
    rw [hrt]
    exact decLE_leBytes8_mod _
  · simp only [SecureReader.nextNonce]
    rw [hrt, hrt2, decLE_leBytes8_mod, decLE_leBytes8_mod]
  · simp only [SecureReader.nextNonce]
    rw [hrd, hrd2]
  · simp [SecureReader.nextNonce]

/-- Witness for `nonce_schedule` at a concrete writer, reader and nonce. -/
theorem nonce_schedule_witness :
    ((⟨List.replicate 24 7, 5, 12, false, none⟩ : SecureWriter).nonceBase.length
        = maxNonceSize)
    ∧ ((⟨List.replicate 24 7, 5, 12, false, none⟩ : SecureWriter).nextNonce).1
        = leBytes 8 ((5 + 1) % u64Mod) ++ List.replicate 4 7 := by
  obtain ⟨h, _, _⟩ := nonce_schedule
    (⟨List.replicate 24 7, 5, 12, false, none⟩ : SecureWriter)
    (⟨List.replicate 24 7, 9, 24, [], false, none⟩ : SecureReader)
    (List.replicate 12 0) 12
    (by decide) (by decide) (by decide) (by decide) (by decide) (by decide)
  refine ⟨by decide, ?_⟩
  rw [h.1]
  decide

/-- **C8, counterexample.**  A writer whose counter holds `2^64 - 2` produces
the 8-byte prefixes `FF FF FF FF FF FF FF FF`, `00…00`, `01 00…00` for its
next three nonces — the counter is pre-incremented, so the claimed triple
starting at `FF…FE` (read either as the little-endian bytes of `2^64 - 2` or
as the byte string `FF…FE`) is not what the code produces.  This matches the
repository's own test `TestSecure/test nonceId overflow`. -/
theorem nonce_wrap_cex :
    (((⟨List.replicate 24 5, 2 ^ 64 - 2, 12, false, none⟩ : SecureWriter).nextNonce).1.take 8,
      ((⟨List.replicate 24 5, 2 ^ 64 - 2, 12, false, none⟩ : SecureWriter).nextNonce).2.nextNonce.1.take 8,
      ((⟨List.replicate 24 5, 2 ^ 64 - 2, 12, false, none⟩ : SecureWriter).nextNonce).2.nextNonce.2.nextNonce.1.take 8)
      = (List.replicate 8 255, List.replicate 8 0, 1 :: List.replicate 7 0)
    ∧ (((⟨List.replicate 24 5, 2 ^ 64 - 2, 12, false, none⟩ : SecureWriter).nextNonce).1.take 8,
      ((⟨List.replicate 24 5, 2 ^ 64 - 2, 12, false, none⟩ : SecureWriter).nextNonce).2.nextNonce.1.take 8,
      ((⟨List.replicate 24 5, 2 ^ 64 - 2, 12, false, none⟩ : SecureWriter).nextNonce).2.nextNonce.2.nextNonce.1.take 8)
      ≠ (254 :: List.replicate 7 255, List.replicate 8 255, List.replicate 8 0)
    ∧ (((⟨List.replicate 24 5, 2 ^ 64 - 2, 12, false, none⟩ : SecureWriter).nextNonce).1.take 8,
      ((⟨List.replicate 24 5, 2 ^ 64 - 2, 12, false, none⟩ : SecureWriter).nextNonce).2.nextNonce.1.take 8,
      ((⟨List.replicate 24 5, 2 ^ 64 - 2, 12, false, none⟩ : SecureWriter).nextNonce).2.nextNonce.2.nextNonce.1.take 8)
      ≠ (List.replicate 7 255 ++ [254], List.replicate 8 255, List.replicate 8 0) := by
  refine ⟨by decide, by decide, by decide⟩

/-- **C8, amended.**  For a writer whose nonce counter currently holds
`2^64 − 2`, the 8-byte little-endian prefixes of the next three nonces
encode `2^64 − 1`, then `0`, then `1` (bytes `FF…FF`, `00…00`,
`01 00…00`); the wrap-around is silent (the counter simply continues
mod `2^64`; `nextNonce` has no error outcome) and the suffix is unchanged
throughout. -/
theorem nonce_wrap (w : SecureWriter) (hid : w.nonceId = 2 ^ 64 - 2)
    (hb : w.nonceBase.length = maxNonceSize) (h8 : idSizeV1 ≤ w.nonceSize)
    (h24 : w.nonceSize ≤ maxNonceSize) :
    (w.nextNonce).1.take idSizeV1 = List.replicate 8 255
    ∧ ((w.nextNonce).2.nextNonce).1.take idSizeV1 = List.replicate 8 0
    ∧ (((w.nextNonce).2.nextNonce).2.nextNonce).1.take idSizeV1
        = 1 :: List.replicate 7 0
    ∧ ((w.nextNonce).2.nextNonce).1.drop idSizeV1 = (w.nextNonce).1.drop idSizeV1
    ∧ (((w.nextNonce).2.nextNonce).2.nextNonce).1.drop idSizeV1
        = (w.nextNonce).1.drop idSizeV1 := by
  have e1 : (w.nonceId + 1) % u64Mod = 2 ^ 64 - 1 := by
    rw [hid]
    simp only [u64Mod]
    omega
  have e2 : ((2 ^ 64 - 1 : Nat) + 1) % u64Mod = 0 := by
    simp only [u64Mod]
    omega
  have e3 : ((0 : Nat) + 1) % u64Mod = 1 := by
    simp only [u64Mod]
    omega
  obtain ⟨ht1, hd1, _⟩ := nonceWire_parts w.nonceBase w.nonceSize
    ((w.nonceId + 1) % u64Mod) hb h8 h24
  obtain ⟨ht2, hd2, _⟩ := nonceWire_parts w.nonceBase w.nonceSize
    (((w.nonceId + 1) % u64Mod + 1) % u64Mod) hb h8 h24
  obtain ⟨ht3, hd3, _⟩ := nonceWire_parts w.nonceBase w.nonceSize
    ((((w.nonceId + 1) % u64Mod + 1) % u64Mod + 1) % u64Mod) hb h8 h24
  simp only [SecureWriter.nextNonce]
  refine ⟨?_, ?_, ?_, ?_, ?_⟩
  · rw [ht1, e1]
    decide
  · rw [ht2, e1, e2]
    decide
  · rw [ht3, e1, e2, e3]
    decide
  · rw [hd1, hd2]
  · rw [hd1, hd3]

/-- Witness for `nonce_wrap` at a concrete writer. -/
theorem nonce_wrap_witness :
    ((⟨List.replicate 24 5, 2 ^ 64 - 2, 12, false, none⟩ : SecureWriter).nextNonce).1.take
      idSizeV1 = List.replicate 8 255 :=
  (nonce_wrap (⟨List.replicate 24 5, 2 ^ 64 - 2, 12, false, none⟩ : SecureWriter)
    (by decide) (by decide) (by decide) (by decide)).1

/-- **C10.**  `Conn.init` builds the connection's `SecureReader` and
`SecureWriter` from the same session key and the same derived nonce, so the
two directions start with identical `(nonce_base, initial counter, nonce
size)` and for every `n` the nonce used for the `n`-th record written
equals the nonce used for the `n`-th record read. -/
theorem conn_init_nonce_parallel (aeadNonceSize : Bytes → Nat)
    (key nonce : Bytes) (n : Nat) :
    (connInit aeadNonceSize key nonce).1.nonceBase
        = (connInit aeadNonceSize key nonce).2.nonceBase
    ∧ (connInit aeadNonceSize key nonce).1.nonceId
        = (connInit aeadNonceSize key nonce).2.nonceId
    ∧ (connInit aeadNonceSize key nonce).1.nonceSize
        = (connInit aeadNonceSize key nonce).2.nonceSize
    ∧ (connInit aeadNonceSize key nonce).1.recordNonce n
        = (connInit aeadNonceSize key nonce).2.recordNonce n := by
  refine ⟨rfl, rfl, rfl, ?_⟩
  simp only [connInit, SecureReader.recordNonce, SecureWriter.recordNonce,
    reader_afterRecords, writer_afterRecords, SecureReader.nextNonce,
    SecureWriter.nextNonce, NewSecureReader, NewSecureWriter]

/-! ## Error stickiness -/

theorem read_st_fields (opn : Bytes → Bytes → Option Bytes) (r : SecureReader)
    (input : Bytes) :
    (r.read opn input).st.closed = r.closed
    ∧ (r.read opn input).st.errF = r.errF := by
  constructor
  · simp only [SecureReader.read]
    split_ifs <;> try rfl
    all_goals split <;> rfl
  · simp only [SecureReader.read]
    split_ifs <;> try rfl
    all_goals split <;> rfl

theorem Read_st_fields (opn : Bytes → Bytes → Option Bytes) (r : SecureReader)
    (input : Bytes) (k : Nat) :
    (r.Read opn input k).st.closed = r.closed
    ∧ (r.Read opn input k).st.errF = r.errF := by
  rw [SecureReader.Read]
  obtain ⟨h1, h2⟩ := read_st_fields opn r input
  repeat' split <;> simp_all

theorem writeLoop_st_fields (sealFn : Bytes → Bytes → Bytes) :
    ∀ (b : Bytes) (w : SecureWriter) (oracle : List (Option Nat)),
    (writeLoop sealFn w oracle b).st.closed = w.closed
    ∧ (writeLoop sealFn w oracle b).st.errF = w.errF := by
  suffices hs : ∀ n b, List.length b ≤ n → ∀ (w : SecureWriter) oracle,
      (writeLoop sealFn w oracle b).st.closed = w.closed
      ∧ (writeLoop sealFn w oracle b).st.errF = w.errF from
    fun b => hs b.length b le_rfl
  intro n
  induction n with
  | zero =>
    intro b hb w oracle
    have : b = [] := List.length_eq_zero.mp (Nat.le_zero.mp hb)
    subst this
    rw [writeLoop]
    simp
  | succ n ih =>
    intro b hb w oracle
    by_cases hbe : b.isEmpty
    · rw [List.isEmpty_iff] at hbe
      subst hbe
      rw [writeLoop]
      simp
    · have hbf : b.isEmpty = false := by simpa using hbe
      have hlen : 0 < b.length := List.length_pos.mpr (by simpa using hbe)
      rw [writeLoop]
      simp only [hbf, Bool.false_eq_true, ↓reduceDIte, SecureWriter.write,
        SecureWriter.nextNonce]
      have hih := ih (b.drop (b.take gcmPacketSize).length)
        (by simp only [List.length_drop, List.length_take, gcmPacketSize]; omega)
      rcases hfl : flushAll oracle (leBytes 2 (gcmHeaderSize
          + (List.take gcmPacketSize b).length + gcmTagSize - gcmHeaderSize)
          ++ sealFn (nonceWire w.nonceBase w.nonceSize ((w.nonceId + 1) % u64Mod))
            (List.take gcmPacketSize b)) with ⟨fout, forc, fok⟩
      cases fok
      · exact ⟨rfl, rfl⟩
      · exact ⟨(hih _ _).1, (hih _ _).2⟩

theorem Write_st_fields (sealFn : Bytes → Bytes → Bytes) (w : SecureWriter)
    (oracle : List (Option Nat)) (b : Bytes) :
    (w.Write sealFn oracle b).st.closed = w.closed
    ∧ (w.Write sealFn oracle b).st.errF = w.errF := by
  rw [SecureWriter.Write]
  obtain ⟨h1, h2⟩ := writeLoop_st_fields sealFn b w oracle
  repeat' split <;> simp_all

/-- **C5, counterexample.**  A `Write` that fails with a carrier error does
not store the error: the `err` field stays `nil` and the very next `Write`
on the same writer performs I/O again and succeeds (returning 3, not the
stored error).  Likewise a `Read` that fails the AEAD tag check returns the
cipher error without storing it, and the next `Read` succeeds on the
following record. -/
theorem error_not_stored_cex :
    ((NewSecureWriter 12 (List.replicate 12 0)).Write toySeal [none] [1, 2, 3]).e
        = some .carrier
    ∧ ((NewSecureWriter 12 (List.replicate 12 0)).Write toySeal [none] [1, 2, 3]).st.errF
        = none
    ∧ (((NewSecureWriter 12 (List.replicate 12 0)).Write toySeal [none] [1, 2, 3]).st.Write
        toySeal [] [1, 2, 3]).e = none
    ∧ (((NewSecureWriter 12 (List.replicate 12 0)).Write toySeal [none] [1, 2, 3]).st.Write
        toySeal [] [1, 2, 3]).n = 3
    ∧ ((NewSecureReader 12 (List.replicate 12 0)).Read toyOpn
        (17 :: 0 :: List.replicate 17 1) 5).e = some .cipher
    ∧ ((NewSecureReader 12 (List.replicate 12 0)).Read toyOpn
        (17 :: 0 :: List.replicate 17 1) 5).st.errF = none
    ∧ (((NewSecureReader 12 (List.replicate 12 0)).Read toyOpn
        (17 :: 0 :: List.replicate 17 1) 5).st.Read toyOpn
        (17 :: 0 :: (9 :: List.replicate 16 0)) 5).out = [9] := by
  have hw : writeLoop toySeal (NewSecureWriter 12 (List.replicate 12 0)) [none] [1, 2, 3]
      = ⟨[], 0, ((NewSecureWriter 12 (List.replicate 12 0)).nextNonce).2, [],
        some .carrier⟩ := by
    rw [writeLoop]
    simp only [List.isEmpty_cons, Bool.false_eq_true, ↓reduceDIte,
      SecureWriter.write, SecureWriter.nextNonce]
    have hflush : flushAll [none] (leBytes 2 (gcmHeaderSize
        + ([1, 2, 3].take gcmPacketSize).length + gcmTagSize - gcmHeaderSize)
        ++ toySeal (nonceWire (NewSecureWriter 12 (List.replicate 12 0)).nonceBase
          (NewSecureWriter 12 (List.replicate 12 0)).nonceSize
          (((NewSecureWriter 12 (List.replicate 12 0)).nonceId + 1) % u64Mod))
          ([1, 2, 3].take gcmPacketSize)) = ([], [], false) := by
      rw [flushAll]
      simp [leBytes]
    rw [hflush]
    decide
  have hW : (NewSecureWriter 12 (List.replicate 12 0)).Write toySeal [none] [1, 2, 3]
      = ⟨[], 0, ((NewSecureWriter 12 (List.replicate 12 0)).nextNonce).2, [],
        some .carrier⟩ := by
    rw [SecureWriter.Write]
    simp only [NewSecureWriter, Bool.false_eq_true, ↓reduceIte]
    exact hw
  rw [hW]
  have hW2 := writeLoop_spec toySeal [1, 2, 3]
    ((NewSecureWriter 12 (List.replicate 12 0)).nextNonce).2
  refine ⟨rfl, rfl, ?_, ?_, ?_, ?_, ?_⟩
  · show (writeLoop toySeal ((NewSecureWriter 12 (List.replicate 12 0)).nextNonce).2
      [] [1, 2, 3]).e = none
    rw [hW2]
  · show (writeLoop toySeal ((NewSecureWriter 12 (List.replicate 12 0)).nextNonce).2
      [] [1, 2, 3]).n = 3
    rw [hW2]
    rfl
  · decide
  · decide
  · decide

/-- **C5, amended.**  After a `SecureWriter.Write` that returns a carrier
error and after a `SecureReader` read that returns a fatal error (including
a `CipherError`), the error is *not* stored: `Write` and `Read` leave the
`closed` and `err` fields exactly as they were (only `Close` sets the sticky
`io.ErrClosedPipe`), so a subsequent call on a never-closed object repeats
the I/O instead of returning the previous error — even though the nonce has
already advanced. -/
theorem error_not_stored (sealFn : Bytes → Bytes → Bytes)
    (opn : Bytes → Bytes → Option Bytes) (w : SecureWriter) (r : SecureReader)
    (oracle : List (Option Nat)) (b input : Bytes) (k : Nat) :
    (w.Write sealFn oracle b).st.closed = w.closed
    ∧ (w.Write sealFn oracle b).st.errF = w.errF
    ∧ (r.Read opn input k).st.closed = r.closed
    ∧ (r.Read opn input k).st.errF = r.errF
    ∧ (w.Close).1.errF = some (w.errF.getD .closedPipe)
    ∧ (r.Close).1.errF = some (r.errF.getD .closedPipe) := by
  obtain ⟨hw1, hw2⟩ := Write_st_fields sealFn w oracle b
  obtain ⟨hr1, hr2⟩ := Read_st_fields opn r input k
  exact ⟨hw1, hw2, hr1, hr2, rfl, rfl⟩

/-! ## Record length classification -/

/-- **C3, counterexample.**  If the two header bytes decode to a legal
length (here 17) but the carrier has no body bytes at all, the body read
reads zero bytes and `io.ReadFull` reports `io.EOF`, not
`io.ErrUnexpectedEOF` — so "a short read yields UnexpectedEOF" fails in the
zero-byte case. -/
theorem read_short_body_eof_cex :
    SecureReader.read toyOpn
        ⟨List.replicate 24 0, 0, 12, [], false, none⟩ [17, 0]
      = ⟨⟨List.replicate 24 0, 0, 12, [], false, none⟩, [], some .eof⟩
    ∧ Err.eof ≠ Err.unexpectedEof := by
  refine ⟨by decide, by decide⟩

/-- **C3, amended.**  When `SecureReader.read` fetches a new record it reads
a 2-byte little-endian length `L` and classifies it exactly as: `L = 0` →
EOF; `L > MAX_PAYLOAD + TAG_SIZE` (4112) → `MessageTooLong`; `0 < L ≤
TAG_SIZE` (16) → `MessageTooShort`; otherwise it reads exactly `L`
ciphertext+tag bytes, where a short body read with at least one byte
available yields `UnexpectedEOF` and with no byte available yields `EOF`,
and a full body read consumes exactly `L` bytes and hands them to the AEAD
(failing only with `CipherError`). -/
theorem read_length_classification (opn : Bytes → Bytes → Option Bytes)
    (r : SecureReader) (h0 h1 : Nat) (rest : Bytes)
    (hb0 : h0 < 256) (hb1 : h1 < 256) :
    (h0 + 256 * h1 = 0 →
      r.read opn (h0 :: h1 :: rest) = ⟨r, rest, some .eof⟩)
    ∧ (gcmPacketSize + gcmTagSize < h0 + 256 * h1 →
      r.read opn (h0 :: h1 :: rest) = ⟨r, rest, some .tooLong⟩)
    ∧ (0 < h0 + 256 * h1 → h0 + 256 * h1 ≤ gcmTagSize →
      r.read opn (h0 :: h1 :: rest) = ⟨r, rest, some .tooShort⟩)
    ∧ (gcmTagSize < h0 + 256 * h1 → h0 + 256 * h1 ≤ gcmPacketSize + gcmTagSize →
      rest.length < h0 + 256 * h1 →
      r.read opn (h0 :: h1 :: rest)
        = ⟨r, rest.drop (h0 + 256 * h1),
          some (if rest.isEmpty then .eof else .unexpectedEof)⟩)
    ∧ (gcmTagSize < h0 + 256 * h1 → h0 + 256 * h1 ≤ gcmPacketSize + gcmTagSize →
      h0 + 256 * h1 ≤ rest.length →
      (r.read opn (h0 :: h1 :: rest)).input = rest.drop (h0 + 256 * h1)
      ∧ ((r.read opn (h0 :: h1 :: rest)).e = none
        ∨ (r.read opn (h0 :: h1 :: rest)).e = some .cipher)) := by
  have hdec : decLE ((h0 :: h1 :: rest).take gcmHeaderSize) = h0 + 256 * h1 := by
    show decLE [h0, h1] = h0 + 256 * h1
    simp [decLE]
  have hlen : ¬ ((h0 :: h1 :: rest).length < gcmHeaderSize) := by
    simp only [List.length_cons, gcmHeaderSize]
    omega
  have hdrop : (h0 :: h1 :: rest).drop gcmHeaderSize = rest := rfl
  refine ⟨?_, ?_, ?_, ?_, ?_⟩
  · intro hL
    simp only [SecureReader.read]
    rw [if_neg hlen, hdec, hdrop, if_pos hL]
  · intro hL
    simp only [SecureReader.read]
    rw [if_neg hlen, hdec, hdrop,
      if_neg (by simp only [gcmPacketSize, gcmTagSize] at hL; omega),
      if_pos (by simp only [gcmPacketCache, gcmPacketSize, gcmTagSize,
        gcmHeaderSize] at hL ⊢; omega)]
  · intro hL0 hL
    simp only [SecureReader.read]
    rw [if_neg hlen, hdec, hdrop, if_neg (by omega),
      if_neg (by simp only [gcmPacketCache, gcmPacketSize, gcmTagSize,
        gcmHeaderSize]; simp only [gcmTagSize] at hL; omega),
      if_pos hL]
  · intro hL1 hL2 hshort
    simp only [SecureReader.read]
    rw [if_neg hlen, hdec, hdrop,
      if_neg (by simp only [gcmTagSize] at hL1; omega),
      if_neg (by simp only [gcmPacketCache, gcmPacketSize, gcmTagSize,
        gcmHeaderSize]; simp only [gcmPacketSize, gcmTagSize] at hL2; omega),
      if_neg (by
        simp only [gcmPacketCache, gcmPacketSize, gcmTagSize, gcmHeaderSize] at *
        try rw [hdec]
        omega),
      if_pos hshort]
  · intro hL1 hL2 hfull
    simp only [SecureReader.read]
    rw [if_neg hlen, hdec, hdrop,
      if_neg (by simp only [gcmTagSize] at hL1; omega),
      if_neg (by simp only [gcmPacketCache, gcmPacketSize, gcmTagSize,
        gcmHeaderSize]; simp only [gcmPacketSize, gcmTagSize] at hL2; omega),
      if_neg (by
        simp only [gcmPacketCache, gcmPacketSize, gcmTagSize, gcmHeaderSize] at *
        try rw [hdec]
        omega),
      if_neg (by
        simp only [gcmPacketCache, gcmPacketSize, gcmTagSize, gcmHeaderSize] at *
        try rw [hdec]
        omega)]
    cases hop : opn ((r.nextNonce).1) (rest.take (h0 + 256 * h1)) with
    | none => exact ⟨rfl, Or.inr rfl⟩
    | some pt => exact ⟨rfl, Or.inl rfl⟩

/-- Witness for `read_length_classification` at concrete header bytes. -/
theorem read_length_classification_witness :
    SecureReader.read toyOpn
        ⟨List.replicate 24 0, 0, 12, [], false, none⟩ (0 :: 0 :: [1, 2, 3])
      = ⟨⟨List.replicate 24 0, 0, 12, [], false, none⟩, [1, 2, 3], some .eof⟩ :=
  (read_length_classification toyOpn
    ⟨List.replicate 24 0, 0, 12, [], false, none⟩ 0 0 [1, 2, 3]
    (by decide) (by decide)).1 (by decide)

/-- Witness for `error_not_stored`: not needed as a hypothesis discharge
(the theorem is unconditional), kept as a concrete instantiation. -/
theorem error_not_stored_witness :
    ((NewSecureWriter 12 (List.replicate 12 0)).Write toySeal [] [1]).st.closed
      = (NewSecureWriter 12 (List.replicate 12 0)).closed :=
  (error_not_stored toySeal toyOpn (NewSecureWriter 12 (List.replicate 12 0))
    (NewSecureReader 12 (List.replicate 12 0)) [] [1] [] 0).1

/-! ## Round trip of the record layer -/

theorem flatten_chunks (bs : List Bytes) :
    ((bs.map chunkSplit).flatten).flatten = bs.flatten := by
  induction bs with
  | nil => simp
  | cons b bs ih =>
    simp only [List.map_cons, List.flatten_cons, List.flatten_append,
      chunkSplit_flatten, ih]

theorem toySeal_length (nc m : Bytes) :
    (toySeal nc m).length = m.length + gcmTagSize := by
  simp [toySeal]

theorem toyOpn_toySeal (nc m : Bytes) : toyOpn nc (toySeal nc m) = some m := by
  have hsub : (m ++ List.replicate gcmTagSize 0 : Bytes).length - gcmTagSize
      = m.length := by
    simp
  have h2 : (m ++ List.replicate gcmTagSize 0 : Bytes).drop
      ((m ++ List.replicate gcmTagSize 0 : Bytes).length - gcmTagSize)
      = List.replicate gcmTagSize 0 := by
    rw [hsub]
    exact List.drop_left m _
  rw [toyOpn, toySeal, if_pos ⟨by simp, h2⟩, hsub, List.take_left]

/-- **C2.**  For every byte sequence `B`, AEAD instance (any `seal`/`open`
pair with 16-byte overhead and `open ∘ seal = id`, i.e. any keyed AEAD) and
every initial nonce: writing `B` through a `SecureWriter` — however `B` is
split across `Write` calls, hence across records — and then reading from a
`SecureReader` built with the same parameters over the produced bytes
yields exactly `B`, for every schedule of positive read sizes long enough
to drain the stream. -/
theorem secure_roundtrip (sealFn : Bytes → Bytes → Bytes)
    (opn : Bytes → Bytes → Option Bytes)
    (hSeal : ∀ nc m, (sealFn nc m).length = m.length + gcmTagSize)
    (hOpen : ∀ nc m, opn nc (sealFn nc m) = some m)
    (nsize : Nat) (nonce : Bytes) (bs : List Bytes) (ks : List Nat)
    (hk : ∀ k ∈ ks, 1 ≤ k) (hlen : bs.flatten.length + 1 ≤ ks.length) :
    (writeSeq sealFn (NewSecureWriter nsize nonce) bs).e = none
    ∧ (writeSeq sealFn (NewSecureWriter nsize nonce) bs).n = bs.flatten.length
    ∧ (readMany opn (NewSecureReader nsize nonce)
        (writeSeq sealFn (NewSecureWriter nsize nonce) bs).out ks).out = bs.flatten
    ∧ (readMany opn (NewSecureReader nsize nonce)
        (writeSeq sealFn (NewSecureWriter nsize nonce) bs).out ks).input = [] := by
  have hcs : ∀ c ∈ (bs.map chunkSplit).flatten,
      1 ≤ c.length ∧ c.length ≤ gcmPacketSize := by
    intro c hc
    rw [List.mem_flatten] at hc
    obtain ⟨l, hl, hcl⟩ := hc
    rw [List.mem_map] at hl
    obtain ⟨b, _, rfl⟩ := hl
    exact chunkSplit_mem b c hcl
  obtain ⟨r', hr'⟩ := readMany_drain sealFn opn hSeal hOpen
    (setSlice (List.replicate maxNonceSize 0) idSizeV1 maxNonceSize
      (nonce.drop idSizeV1)) nsize ks []
    ((bs.map chunkSplit).flatten) (decLE (nonce.take idSizeV1)) hk hcs
    (by rw [List.length_nil, flatten_chunks]; omega)
  rw [writeSeq_spec sealFn bs (NewSecureWriter nsize nonce) rfl rfl]
  refine ⟨rfl, rfl, ?_, ?_⟩
  · show (readMany opn (NewSecureReader nsize nonce)
      (encodeChunks sealFn
        (setSlice (List.replicate maxNonceSize 0) idSizeV1 maxNonceSize
          (nonce.drop idSizeV1)) nsize (decLE (nonce.take idSizeV1))
        ((bs.map chunkSplit).flatten)) ks).out = bs.flatten
    rw [show NewSecureReader nsize nonce
      = (⟨setSlice (List.replicate maxNonceSize 0) idSizeV1 maxNonceSize
          (nonce.drop idSizeV1), decLE (nonce.take idSizeV1), nsize, [], false,
          none⟩ : SecureReader) from rfl]
    rw [hr', List.nil_append, flatten_chunks]
  · show (readMany opn (NewSecureReader nsize nonce)
      (encodeChunks sealFn
        (setSlice (List.replicate maxNonceSize 0) idSizeV1 maxNonceSize
          (nonce.drop idSizeV1)) nsize (decLE (nonce.take idSizeV1))
        ((bs.map chunkSplit).flatten)) ks).input = []
    rw [show NewSecureReader nsize nonce
      = (⟨setSlice (List.replicate maxNonceSize 0) idSizeV1 maxNonceSize
          (nonce.drop idSizeV1), decLE (nonce.take idSizeV1), nsize, [], false,
          none⟩ : SecureReader) from rfl]
    rw [hr']

/-- Witness for `secure_roundtrip`: a concrete AEAD, nonce, write split and
read sizes. -/
theorem secure_roundtrip_witness :
    (∀ nc m, (toySeal nc m).length = m.length + gcmTagSize)
    ∧ (∀ nc m, toyOpn nc (toySeal nc m) = some m)
    ∧ (∀ k ∈ [2, 2, 2, 2, 2, 2], 1 ≤ k)
    ∧ ([[1, 2, 3], [4, 5]] : List Bytes).flatten.length + 1
        ≤ ([2, 2, 2, 2, 2, 2] : List Nat).length
    ∧ ((readMany toyOpn (NewSecureReader 12 (List.replicate 12 0))
        (writeSeq toySeal (NewSecureWriter 12 (List.replicate 12 0))
          [[1, 2, 3], [4, 5]]).out [2, 2, 2, 2, 2, 2]).out
        = ([[1, 2, 3], [4, 5]] : List Bytes).flatten) :=
  ⟨toySeal_length, toyOpn_toySeal, by decide, by decide,
    (secure_roundtrip toySeal toyOpn toySeal_length toyOpn_toySeal 12
      (List.replicate 12 0) [[1, 2, 3], [4, 5]] [2, 2, 2, 2, 2, 2]
      (by decide) (by decide)).2.2.1⟩

set_option maxRecDepth 8000 in
/-- **C9.**  With `CryptoType = xchacha20-poly1305` the client handshake
derives a base nonce of exactly 24 bytes (HKDF is asked for the AEAD's
nonce size, 24), and a single `SecureWriter.Write` of a 7000-byte payload
over the resulting writer emits exactly two records — one sealing the
4096-byte chunk with length field `4096 + 16`, one sealing the remaining
2904-byte chunk with length field `2904 + 16` — and returns 7000. -/
theorem xchacha_nonce_and_two_records (P : Prims) (cfg : ClientConfig)
    (genPriv idB pkt b : Bytes) (info : handshakeInfo) (now : Nat)
    (sealFn : Bytes → Bytes → Bytes)
    (hkdfLen : ∀ s salt inf n, (P.hkdf s salt inf n).length = n)
    (hct : cfg.CryptoType = "xchacha20-poly1305")
    (hok : clientHandshake P cfg genPriv idB now = .ok (pkt, info))
    (hb : b.length = 7000) :
    info.nonce.length = 24
    ∧ chunkSplit b = [b.take gcmPacketSize, b.drop gcmPacketSize]
    ∧ (b.take gcmPacketSize).length = 4096
    ∧ (b.drop gcmPacketSize).length = 2904
    ∧ ((NewSecureWriter 24 info.nonce).Write sealFn [] b).out
      = (leBytes 2 (4096 + gcmTagSize)
          ++ sealFn (nonceWire (NewSecureWriter 24 info.nonce).nonceBase 24
            (((NewSecureWriter 24 info.nonce).nonceId + 1) % u64Mod))
            (b.take gcmPacketSize))
        ++ ((leBytes 2 (2904 + gcmTagSize)
          ++ sealFn (nonceWire (NewSecureWriter 24 info.nonce).nonceBase 24
            ((((NewSecureWriter 24 info.nonce).nonceId + 1) % u64Mod + 1) % u64Mod))
            (b.drop gcmPacketSize))
        ++ [])
    ∧ ((NewSecureWriter 24 info.nonce).Write sealFn [] b).n = 7000
    ∧ ((NewSecureWriter 24 info.nonce).Write sealFn [] b).e = none := by
  have htl : (b.take gcmPacketSize).length = 4096 := by
    simp only [List.length_take, gcmPacketSize]
    omega
  have hdl : (b.drop gcmPacketSize).length = 2904 := by
    simp only [List.length_drop, gcmPacketSize]
    omega
  have hrest : chunkSplit (b.drop gcmPacketSize) = [b.drop gcmPacketSize] := by
    rw [chunkSplit_cons (b.drop gcmPacketSize) (by
      cases hd : b.drop gcmPacketSize with
      | nil => rw [hd] at hdl; simp at hdl
      | cons x xs => simp), drop_take_length]
    rw [List.take_of_length_le
        (show (b.drop gcmPacketSize).length ≤ gcmPacketSize by
          rw [hdl]; simp [gcmPacketSize]),
      List.drop_of_length_le
        (show (b.drop gcmPacketSize).length ≤ gcmPacketSize by
          rw [hdl]; simp [gcmPacketSize]),
      chunkSplit_nil]
  have hchunk : chunkSplit b = [b.take gcmPacketSize, b.drop gcmPacketSize] := by
    rw [chunkSplit_cons b (by
      cases b with
      | nil => simp at hb
      | cons x xs => simp), drop_take_length, hrest]
  have hnonce : info.nonce.length = 24 := by
    have hcf : cryptoFromName "xchacha20-poly1305"
        = Except.ok (CryptoKind.xchacha20poly1305, 24) := rfl
    simp only [clientHandshake, hct, hcf] at hok
    repeat' split at hok
    all_goals
      first
      | exact Except.noConfusion hok
      | (have h2 := Except.ok.inj hok
         have h3 : info = _ := (congrArg Prod.snd h2).symm
         rw [h3]
         exact hkdfLen _ _ _ _)
  refine ⟨hnonce, hchunk, htl, hdl, ?_, ?_, ?_⟩
  · show (writeLoop sealFn (NewSecureWriter 24 info.nonce) [] b).out = _
    rw [writeLoop_spec, hchunk]
    simp only [encodeChunks, htl, hdl, List.append_nil]
    rfl
  · show (writeLoop sealFn (NewSecureWriter 24 info.nonce) [] b).n = 7000
    rw [writeLoop_spec]
    exact hb
  · show (writeLoop sealFn (NewSecureWriter 24 info.nonce) [] b).e = none
    rw [writeLoop_spec]

/-- Witness for `xchacha_nonce_and_two_records` at concrete inputs. -/
theorem xchacha_nonce_and_two_records_witness :
    ∃ pkt info,
      clientHandshake toyPrims
        (⟨120, privCW, toyPub privSW, "xchacha20-poly1305"⟩ : ClientConfig)
        [] idW 1000 = .ok (pkt, info)
      ∧ info.nonce.length = 24
      ∧ ((NewSecureWriter 24 info.nonce).Write toySeal [] (List.replicate 7000 0)).n
          = 7000 := by
  obtain ⟨pr, hpr⟩ : ∃ pr, clientHandshake toyPrims
      (⟨120, privCW, toyPub privSW, "xchacha20-poly1305"⟩ : ClientConfig)
      [] idW 1000 = .ok pr := ⟨_, rfl⟩
  have h := xchacha_nonce_and_two_records toyPrims
    (⟨120, privCW, toyPub privSW, "xchacha20-poly1305"⟩ : ClientConfig)
    [] idW pr.1 (List.replicate 7000 0) pr.2 1000 toySeal
    (fun s salt inf n => by simp [toyHkdf, toyPrims])
    rfl (by rw [hpr]) (List.length_replicate 7000 0)
  exact ⟨pr.1, pr.2, hpr, h.1, h.2.2.2.2.2.1⟩

/-! ## Packet shape lemmas for the handshake -/

/-- Writing the 32-byte public key and the 8 id bytes into the zeroed
72-byte packet buffer yields `epub ‖ id ‖ 0…0`. -/
theorem prefix_shape (epub idB : Bytes) (he : epub.length = keySizeV1)
    (hi : idB.length = idSizeV1) :
    setSlice (setSlice (List.replicate packetSizeV1 0) keyStartV1 keyEndV1 epub)
      idStartV1 idEndV1 idB
      = (epub ++ idB) ++ List.replicate signSizeV1 0 := by
  rw [setSlice_exact _ _ keyStartV1 keyEndV1 (by decide)
    (by simp [packetSizeV1, signEndV1, signStartV1, idEndV1, idStartV1,
      keyEndV1, keyStartV1, keySizeV1, idSizeV1, signSizeV1])
    (by rw [he]; rfl)]
  rw [show (List.replicate packetSizeV1 (0 : Nat)).take keyStartV1 = [] from rfl,
    List.nil_append,
    show (List.replicate packetSizeV1 (0 : Nat)).drop keyEndV1
      = List.replicate 40 0 from rfl]
  rw [setSlice_exact _ _ idStartV1 idEndV1 (by decide)
    (by simp only [List.length_append, List.length_replicate, he]; decide)
    (by rw [hi]; rfl)]
  have h1 : (epub ++ List.replicate 40 0 : Bytes).take idStartV1 = epub :=
    List.take_left' (by rw [he]; rfl)
  have h2 : (epub ++ List.replicate 40 0 : Bytes).drop idEndV1
      = List.replicate signSizeV1 0 := by
    rw [List.drop_append_eq_append_drop, List.drop_of_length_le (by rw [he]; decide),
      List.nil_append, he, List.drop_replicate]
    rfl
  rw [h1, h2, List.append_assoc]

/-- Writing the 32-byte signature over the zero tail yields the full packet
`epub ‖ id ‖ sign`. -/
theorem packet_shape (epub idB sign : Bytes) (he : epub.length = keySizeV1)
    (hi : idB.length = idSizeV1) (hs : sign.length = signSizeV1) :
    setSlice ((epub ++ idB) ++ List.replicate signSizeV1 0) signStartV1 signEndV1
      sign = (epub ++ idB) ++ sign := by
  have hp : ((epub ++ idB) ++ List.replicate signSizeV1 0 : Bytes).length
      = signEndV1 := by
    simp only [List.length_append, List.length_replicate, he, hi]
    rfl
  rw [setSlice_exact _ _ signStartV1 signEndV1 (by decide) (by rw [hp])
    (by rw [hs]; rfl)]
  have h1 : ((epub ++ idB) ++ List.replicate signSizeV1 0 : Bytes).take signStartV1
      = epub ++ idB :=
    List.take_left' (by simp only [List.length_append, he, hi]; rfl)
  have h2 : ((epub ++ idB) ++ List.replicate signSizeV1 0 : Bytes).drop signEndV1
      = [] :=
    List.drop_of_length_le (by rw [hp])
  rw [h1, h2, List.append_nil]

/-- Slices of the assembled 72-byte packet. -/
theorem packet_slices (epub idB sign : Bytes) (he : epub.length = keySizeV1)
    (hi : idB.length = idSizeV1) (hs : sign.length = signSizeV1) :
    ((epub ++ idB) ++ sign : Bytes).length = packetSizeV1
    ∧ ((epub ++ idB) ++ sign : Bytes).take packetSizeV1 = (epub ++ idB) ++ sign
    ∧ ((epub ++ idB) ++ sign : Bytes).take keyEndV1 = epub
    ∧ (((epub ++ idB) ++ sign : Bytes).drop idStartV1).take idSizeV1 = idB
    ∧ ((epub ++ idB) ++ sign : Bytes).take idEndV1 = epub ++ idB
    ∧ ((epub ++ idB) ++ sign : Bytes).drop signStartV1 = sign
    ∧ (((epub ++ idB) ++ sign : Bytes).drop signStartV1).take signSizeV1 = sign := by
  have hlen : ((epub ++ idB) ++ sign : Bytes).length = packetSizeV1 := by
    simp only [List.length_append, he, hi, hs]
    rfl
  have hassoc : ((epub ++ idB) ++ sign : Bytes) = epub ++ (idB ++ sign) :=
    List.append_assoc epub idB sign
  refine ⟨hlen, List.take_of_length_le (by rw [hlen]), ?_, ?_, ?_, ?_, ?_⟩
  · rw [hassoc]
    exact List.take_left' he
  · rw [hassoc, List.drop_left' (by rw [he]; rfl)]
    exact List.take_left' hi
  · exact List.take_left' (by simp only [List.length_append, he, hi]; rfl)
  · exact List.drop_left' (by simp only [List.length_append, he, hi]; rfl)
  · rw [List.drop_left' (by simp only [List.length_append, he, hi]; rfl)]
    exact List.take_of_length_le (by rw [hs])

/-- **C1.**  Handshake round trip: for matching identity keys (the client
pins the server's public key; the ECDH shared secrets agree, which is the
X25519 property `dh(c, pub s) = dh(s, pub c)`), an agreed crypto type and
tolerance, and timestamps in the same tolerance bucket, the server
handshake over the 72-byte packet the client wrote succeeds — in particular
its constant-time HMAC comparison passes — inserts the packet's id into the
replay cache, and derives exactly the client's `(newCrypto, key, nonce)`. -/
theorem handshake_roundtrip (P : Prims) (cfg : ClientConfig)
    (ctx : ServerContext) (genPriv idB pkt : Bytes) (info : handshakeInfo)
    (t1 t2 : Nat)
    (hpubLen : ∀ k, (P.pub k).length = keySizeV1)
    (hmacLen : ∀ k m, (P.hmac k m).length = signSizeV1)
    (hdh : P.dh cfg.PrivateKey (P.pub ctx.PrivateKey)
      = P.dh ctx.PrivateKey (P.pub cfg.PrivateKey))
    (hspub : cfg.ServerPub = P.pub ctx.PrivateKey)
    (hprivC : cfg.PrivateKey.length = keySizeV1)
    (hprivS : ctx.PrivateKey.length = keySizeV1)
    (hid : idB.length = idSizeV1)
    (hct : cfg.CryptoType = ctx.CryptoType)
    (hbucket : timeWindow t1 cfg.Tolerance = timeWindow t2 ctx.Tolerance)
    (hrun : ctx.running = true)
    (hfresh : ∀ e ∈ ctx.idMap, e.1 ≠ decLE idB)
    (hok : clientHandshake P cfg genPriv idB t1 = .ok (pkt, info)) :
    serverHandshake P ctx pkt t2
      = ({ ctx with idMap := (decLE idB, t2) :: ctx.idMap }, .ok info) := by
  have hpe : cfg.PrivateKey.isEmpty = false := by
    cases hx : cfg.PrivateKey with
    | nil => rw [hx] at hprivC; exact absurd hprivC (by decide)
    | cons a l => rfl
  have hepl : (P.pub cfg.PrivateKey).length = keySizeV1 := hpubLen _
  have hse : (P.pub ctx.PrivateKey).isEmpty = false := by
    cases hx : P.pub ctx.PrivateKey with
    | nil =>
      have hc := hpubLen ctx.PrivateKey
      rw [hx] at hc
      exact absurd hc (by decide)
    | cons a l => rfl
  cases hcf : cryptoFromName cfg.CryptoType with
  | error e =>
    simp only [clientHandshake, hspub, hse, Bool.false_eq_true, ↓reduceIte,
      hcf] at hok
    exact Except.noConfusion hok
  | ok kn =>
    obtain ⟨kind, nonceSize⟩ := kn
    simp only [clientHandshake, hspub, hse, hpe, hprivC, hpubLen,
      Bool.false_eq_true, ↓reduceIte, hcf, ne_eq, not_true_eq_false,
      false_and, and_false, not_false_eq_true] at hok
    rw [prefix_shape _ _ hepl hid] at hok
    have hsalt40 : ((P.pub cfg.PrivateKey ++ idB) ++ List.replicate signSizeV1 0
        : Bytes).take idEndV1 = P.pub cfg.PrivateKey ++ idB :=
      List.take_left' (by simp only [List.length_append, hepl, hid]; rfl)
    rw [hsalt40] at hok
    rw [packet_shape _ _ _ hepl hid (hmacLen _ _)] at hok
    obtain ⟨hlen72, htk72, htkey, hidsl, htsalt, hdsign, hnsalt⟩ :=
      packet_slices (P.pub cfg.PrivateKey) idB
        (P.hmac (P.hkdf (P.dh cfg.PrivateKey (P.pub ctx.PrivateKey))
          (P.pub cfg.PrivateKey ++ idB)
          (hexEncode (leBytes 8 (timeWindow t1 cfg.Tolerance))) keySizeV1)
          (P.pub cfg.PrivateKey ++ idB))
        hepl hid (hmacLen _ _)
    rw [hnsalt] at hok
    injection hok with hok'
    injection hok' with hpkt hinfo
    subst hpkt
    subst hinfo
    have hspe : ctx.PrivateKey.isEmpty = false := by
      cases hx : ctx.PrivateKey with
      | nil => rw [hx] at hprivS; exact absurd hprivS (by decide)
      | cons a l => rfl
    have hcf2 : cryptoFromName ctx.CryptoType = .ok (kind, nonceSize) := by
      rw [← hct]
      exact hcf
    have hany : (ctx.idMap.any fun e => e.1 = decLE idB) = false := by
      rw [List.any_eq_false]
      intro e he
      simpa using hfresh e he
    have hcr : ctx.CheckReplay (decLE idB) t2
        = (false, { ctx with idMap := (decLE idB, t2) :: ctx.idMap }) := by
      rw [ServerContext.CheckReplay, hrun]
      simp only [Bool.not_true, Bool.false_eq_true, ↓reduceIte, hany]
    simp only [serverHandshake, hspe, Bool.false_eq_true, ↓reduceIte, hcf2,
      hlen72, lt_irrefl, htk72, hidsl, hcr, htkey, htsalt, hdsign, hprivS,
      ne_eq, not_true_eq_false, ← hdh, ← hbucket, not_false_eq_true]

theorem toyPub_length (k : Bytes) : (toyPub k).length = keySizeV1 := by
  simp only [toyPub, List.length_take, List.length_append, List.length_replicate,
    keySizeV1]
  omega

theorem toyHmac_length (k m : Bytes) : (toyHmac k m).length = signSizeV1 := by
  simp [toyHmac]

/-- Witness for `handshake_roundtrip` at concrete toy keys and timestamps
in the same tolerance bucket. -/
theorem handshake_roundtrip_witness :
    ∃ pkt info,
      clientHandshake toyPrims cfgW [] idW 1000 = .ok (pkt, info)
      ∧ serverHandshake toyPrims ctxW pkt 1079
        = ({ ctxW with idMap := (decLE idW, 1079) :: ctxW.idMap }, .ok info) := by
  obtain ⟨pr, hpr⟩ : ∃ pr, clientHandshake toyPrims cfgW [] idW 1000 = .ok pr :=
    ⟨_, rfl⟩
  refine ⟨pr.1, pr.2, by rw [hpr], ?_⟩
  exact handshake_roundtrip toyPrims cfgW ctxW [] idW pr.1 pr.2 1000 1079
    toyPub_length toyHmac_length (by decide) rfl (by decide) (by decide)
    (by decide) rfl (by decide) rfl (by simp [ctxW]) (by rw [hpr])

/-- C6 counterexample: `ctx6` has a non-empty authorized-key set that does
not contain the epub field of the packet `pkt6`, yet `serverHandshake`
succeeds; no unauthorized-client error exists in the code. -/
theorem authorized_keys_ignored_cex :
    ctx6.AuthorizedKeys ≠ []
    ∧ pkt6.take keySizeV1 ∉ ctx6.AuthorizedKeys
    ∧ ∃ info, (serverHandshake toyPrims ctx6 pkt6 1079).2 = Except.ok info := by
  refine ⟨by decide, by decide, ⟨_, rfl⟩⟩

/-- C6 (amended): `serverHandshake` never consults the authorized-key set.
Its verdict and every other output field are unchanged when the
`AuthorizedKeys` list is replaced arbitrarily. -/
theorem authorized_keys_ignored (P : Prims) (ctx : ServerContext)
    (keys : List Bytes) (pkt : Bytes) (now : Nat) :
    serverHandshake P { ctx with AuthorizedKeys := keys } pkt now
      = ({ (serverHandshake P ctx pkt now).1 with AuthorizedKeys := keys },
         (serverHandshake P ctx pkt now).2) := by
  obtain ⟨tol, priv, ak, ap, ct, im, run⟩ := ctx
  dsimp only [serverHandshake, ServerContext.CheckReplay]
  repeat' split
  all_goals simp_all

theorem sweep_fields_aux (ctx : ServerContext) (s : Nat) :
    (ctx.sweep s).PrivateKey = ctx.PrivateKey
    ∧ (ctx.sweep s).CryptoType = ctx.CryptoType
    ∧ (ctx.sweep s).Tolerance = ctx.Tolerance
    ∧ (ctx.sweep s).running = ctx.running :=
  ⟨rfl, rfl, rfl, rfl⟩

theorem sweeps_fields (ctx : ServerContext) (ss : List Nat) :
    (ctx.sweeps ss).PrivateKey = ctx.PrivateKey
    ∧ (ctx.sweeps ss).CryptoType = ctx.CryptoType
    ∧ (ctx.sweeps ss).Tolerance = ctx.Tolerance
    ∧ (ctx.sweeps ss).running = ctx.running := by
  induction ss generalizing ctx with
  | nil => exact ⟨rfl, rfl, rfl, rfl⟩
  | cons s ss ih => exact ih (ctx.sweep s)

theorem sweeps_keep (ctx : ServerContext) (e : Nat × Nat) (ss : List Nat)
    (he : e ∈ ctx.idMap) (hs : ∀ s ∈ ss, s ≤ e.2 + ctx.Tolerance) :
    e ∈ (ctx.sweeps ss).idMap := by
  induction ss generalizing ctx with
  | nil => exact he
  | cons s ss ih =>
    have hkeep : e ∈ (ctx.sweep s).idMap := by
      simp only [ServerContext.sweep, List.mem_filter]
      refine ⟨he, ?_⟩
      have hb := hs s (List.mem_cons_self s ss)
      simp only [Bool.not_eq_true', decide_eq_false_iff_not, not_lt]
      omega
    exact ih (ctx.sweep s) hkeep
      (fun s' hs' => hs s' (List.mem_cons_of_mem s hs'))

theorem serverHandshake_fresh_shape (P : Prims) (ctx : ServerContext)
    (pkt : Bytes) (t1 : Nat) (cp : CryptoKind × Nat)
    (hrun : ctx.running = true)
    (hpe : ctx.PrivateKey.isEmpty = false)
    (hcf : cryptoFromName ctx.CryptoType = .ok cp)
    (hlen : packetSizeV1 ≤ pkt.length)
    (hfresh : ∀ e ∈ ctx.idMap, e.1 ≠ decLE (handshakeIdSlice pkt)) :
    ∃ res, serverHandshake P ctx pkt t1
        = ({ ctx with idMap :=
              (decLE (handshakeIdSlice pkt), t1) :: ctx.idMap }, res)
      ∧ res ≠ Except.error Err.replayAttack := by
  obtain ⟨kind, ns⟩ := cp
  have hlt : ¬ pkt.length < packetSizeV1 := not_lt.mpr hlen
  have hany : (ctx.idMap.any fun e =>
      decide (e.1 = decLE (handshakeIdSlice pkt))) = false := by
    rw [List.any_eq_false]
    intro e he
    simpa using hfresh e he
  simp only [serverHandshake, hpe, Bool.false_eq_true, ↓reduceIte, hcf, hlt,
    ServerContext.CheckReplay, hrun, Bool.not_true, handshakeIdSlice] at *
  simp only [hany, Bool.false_eq_true, ↓reduceIte]
  split_ifs with h1 h2
  · exact ⟨Except.error Err.invalidKey, rfl, by simp⟩
  · exact ⟨Except.error Err.signError, rfl, by simp⟩
  · exact ⟨_, rfl, by simp⟩

/-- C7: a fresh handshake's replay check passes and caches the packet id
with its timestamp, and a second packet carrying the same id, processed
within `Tolerance` seconds (across any GC sweeps run up to that time),
fails with `replayAttack` — for every choice of crypto primitives on the
second run, so the rejection happens before any ECDH computation. -/
theorem replay_detection (P : Prims) (ctx : ServerContext) (pkt pkt2 : Bytes)
    (t1 t2 : Nat) (cp : CryptoKind × Nat)
    (hrun : ctx.running = true)
    (hpe : ctx.PrivateKey.isEmpty = false)
    (hcf : cryptoFromName ctx.CryptoType = .ok cp)
    (hlen : packetSizeV1 ≤ pkt.length) (hlen2 : packetSizeV1 ≤ pkt2.length)
    (hid : handshakeIdSlice pkt2 = handshakeIdSlice pkt)
    (hfresh : ∀ e ∈ ctx.idMap, e.1 ≠ decLE (handshakeIdSlice pkt))
    (ht2 : t2 ≤ t1 + ctx.Tolerance) :
    (serverHandshake P ctx pkt t1).2 ≠ Except.error Err.replayAttack
    ∧ (decLE (handshakeIdSlice pkt), t1)
        ∈ (serverHandshake P ctx pkt t1).1.idMap
    ∧ ∀ (Q : Prims) (ss : List Nat), (∀ s ∈ ss, s ≤ t2) →
        (serverHandshake Q
          (((serverHandshake P ctx pkt t1).1).sweeps ss) pkt2 t2).2
          = Except.error Err.replayAttack := by
  obtain ⟨res, hres, hne⟩ :=
    serverHandshake_fresh_shape P ctx pkt t1 cp hrun hpe hcf hlen hfresh
  rw [hres]
  obtain ⟨kind, ns⟩ := cp
  refine ⟨hne, List.mem_cons_self _ _, ?_⟩
  intro Q ss hss
  have hmem : (decLE (handshakeIdSlice pkt), t1)
      ∈ (({ ctx with idMap :=
          (decLE (handshakeIdSlice pkt), t1) :: ctx.idMap }
          : ServerContext).sweeps ss).idMap := by
    refine sweeps_keep _ _ ss (List.mem_cons_self _ _) ?_
    intro s hs'
    have := hss s hs'
    show s ≤ t1 + ctx.Tolerance
    omega
  have hP : ((({ ctx with idMap :=
      (decLE (handshakeIdSlice pkt), t1) :: ctx.idMap }
      : ServerContext)).sweeps ss).PrivateKey = ctx.PrivateKey :=
    (sweeps_fields _ ss).1
  have hC : ((({ ctx with idMap :=
      (decLE (handshakeIdSlice pkt), t1) :: ctx.idMap }
      : ServerContext)).sweeps ss).CryptoType = ctx.CryptoType :=
    (sweeps_fields _ ss).2.1
  have hR : ((({ ctx with idMap :=
      (decLE (handshakeIdSlice pkt), t1) :: ctx.idMap }
      : ServerContext)).sweeps ss).running = true :=
    ((sweeps_fields _ ss).2.2.2).trans hrun
  have hlt2 : ¬ pkt2.length < packetSizeV1 := not_lt.mpr hlen2
  have hany : ((({ ctx with idMap :=
      (decLE (handshakeIdSlice pkt), t1) :: ctx.idMap }
      : ServerContext).sweeps ss).idMap.any fun e =>
      decide (e.1
        = decLE (((pkt2.take packetSizeV1).drop idStartV1).take idSizeV1)))
      = true := by
    rw [List.any_eq_true]
    refine ⟨_, hmem, ?_⟩
    have hsl : ((pkt2.take packetSizeV1).drop idStartV1).take idSizeV1
        = handshakeIdSlice pkt := hid
    simp [hsl]
  simp only [serverHandshake, hP, hC, hR, hpe, Bool.false_eq_true,
    ↓reduceIte, hcf, hlt2, ServerContext.CheckReplay, Bool.not_true,
    hany]

/-- Witness for `replay_detection` at the toy context, replaying the toy
packet fifty seconds later. -/
theorem replay_detection_witness :
    (serverHandshake toyPrims ctxW pkt6 1000).2 ≠ Except.error Err.replayAttack
    ∧ (decLE (handshakeIdSlice pkt6), 1000)
        ∈ (serverHandshake toyPrims ctxW pkt6 1000).1.idMap
    ∧ ∀ (Q : Prims) (ss : List Nat), (∀ s ∈ ss, s ≤ 1050) →
        (serverHandshake Q
          (((serverHandshake toyPrims ctxW pkt6 1000).1).sweeps ss) pkt6 1050).2
          = Except.error Err.replayAttack :=
  replay_detection toyPrims ctxW pkt6 pkt6 1000 1050 (CryptoKind.aes256gcm, 12)
    rfl (by decide) rfl (by decide) (by decide) rfl (by simp [ctxW]) (by decide)

end Stcp
